import Mathlib

/-!
# Verification of the compressed-streaming binary codec

Shallow embedding of the codec pair
`ContAcqVoltage-ToFile-Compacted.c` (encoder header logic) and
`GraphAcquiredCompactedData.c` (header parser and the two decode paths).

Embedding conventions:
* Bytes are `Nat` values (the C `uInt8` stream); the decoder's `long val`
  accumulator (32-bit on the target platform) is carried as a `Nat` bit
  pattern and interpreted through `toInt32` (two's complement, wrapping
  at `2^32`) at the point where C converts it to `double` for scaling.
* `double` scaling coefficients and scaled samples are carried as `ℚ`;
  the polynomial evaluation loop is translated literally.  (No claim in
  scope depends on binary floating-point rounding.)
* File I/O (`fscanf`) is embedded by pre-scanned field records
  (`ChannelFields`, `HeaderFields`): each record field is the value the
  corresponding `fscanf` would assign.  The parser's checks on those
  values are translated literally from `ParseDataFileHeader`.
* The unpacked decode `while (numBytes)` loop is fuel-indexed
  (`decodeUAux`); `none` means the fuel was exhausted, which on the C
  side is an infinite loop.  The top-level entry points supply
  `buf.length + 1` fuel, which is shown sufficient whenever the C loop
  terminates.
* `malloc` failure paths and the plotting sink are not modelled; the
  decode result is the per-sample list of `(raw value, scaled value)`
  pairs the C code stores into `data[iChan][numSamples]`.
-/

/-! ## Bit-level utilities -/

/-- The `w` low bits of `n`, most-significant-bit first
(`[n>>>(w-1) &&& 1, …, n &&& 1]`). -/
def natToBits : Nat → Nat → List Nat
  | 0, _ => []
  | w+1, n => ((n >>> w) &&& 1) :: natToBits w n

/-- MSB-first accumulation of a bit list onto `val`, exactly the
`val = 2*val + bit` shift-in of the packed decode loop. -/
def bitsToNatAux (val : Nat) (bits : List Nat) : Nat :=
  bits.foldl (fun v b => 2 * v + b) val

/-- The 8 bits of a byte, MSB first. -/
def byteBits (b : Nat) : List Nat :=
  natToBits 8 b

/-- Two's-complement reading of a 32-bit pattern (the C `long` on the
target platform); values are wrapped at `2^32`. -/
def toInt32 (v : Nat) : Int :=
  if v % 2 ^ 32 < 2 ^ 31 then ((v % 2 ^ 32 : Nat) : Int)
  else ((v % 2 ^ 32 : Nat) : Int) - 2 ^ 32

/-! ## Data model (structs of `GraphAcquiredCompactedData.c`) -/

inductive ByteOrder where
  | BigEndian
  | LittleEndian
deriving DecidableEq, Repr

inductive CompressionType where
  | None
  | LosslessPacking
  | LossyLSBRemoval
deriving DecidableEq, Repr

inductive Justification where
  | Left
  | Right
deriving DecidableEq, Repr

structure ChannelInfo where
  rawSampleResolution : Nat
  rawSampleSizeInBits : Nat
  rawSampleJustification : Justification
  signedNumber : Bool
  compressionType : CompressionType
  compressedSampleSizeInBits : Nat
  compressionByteOrder : ByteOrder
  polynomialScalingCoeffChain : List ℚ
deriving DecidableEq, Repr

structure DataFileInfo where
  numberOfChannels : Nat
  readBlockSize : Nat
  readBlockSizeInBytes : Nat
  channelInfoChain : List ChannelInfo
deriving DecidableEq, Repr

/-! ## Polynomial scaling

The C loop
`for(data=0.0,coeff=chain;coeff;coeff=coeff->next,polynom*=val) data += coeff->scalingCoeff*polynom;`. -/

def polyEvalAux (val : ℚ) : List ℚ → ℚ → ℚ → ℚ
  | [], _, acc => acc
  | c :: rest, polynom, acc => polyEvalAux val rest (polynom * val) (acc + c * polynom)

def polyEval (coeffs : List ℚ) (val : Int) : ℚ :=
  polyEvalAux (val : ℚ) coeffs 1 0

/-! ## Unpacked decode path (`DecodeDataWithoutPacking`) -/

/-- The little-endian byte-read loop
`for(iByte=0;iByte<bytes&&numBytes;++iByte,--numBytes) val += *rawData++ << iByte*8;`.
Returns the accumulated value and the remaining stream. -/
def readLEAux : Nat → Nat → Nat → List Nat → Nat × List Nat
  | 0, _, val, buf => (val, buf)
  | _+1, _, val, [] => (val, [])
  | bytes+1, iByte, val, x :: rest => readLEAux bytes (iByte + 1) (val + x * 2 ^ (8 * iByte)) rest

/-- The big-endian byte-read loop
`for(iByte=0;iByte<bytes&&numBytes;++iByte,--numBytes) val = (val<<8) + *rawData++;`. -/
def readBEAux : Nat → Nat → List Nat → Nat × List Nat
  | 0, val, buf => (val, buf)
  | _+1, val, [] => (val, [])
  | bytes+1, val, x :: rest => readBEAux bytes (val * 2 ^ 8 + x) rest

/-- Sign extension of the unpacked path (source lines 283–300):
`signmask = 1 << (size-1)`, `extendmask = 0xFFFFFFFF - (1 << (32-size)) + 1`,
applied when `signedNumber && size < 32 && (val & signmask)`. -/
def signExtendU (chan : ChannelInfo) (v : Nat) : Nat :=
  let size := chan.rawSampleSizeInBits
  let signmask := 2 ^ (size - 1)
  let extendmask := 2 ^ 32 - 2 ^ (32 - size)
  if chan.signedNumber ∧ size < 32 ∧ v &&& signmask ≠ 0 then v ||| extendmask else v

/-- One channel of one sample in the unpacked path: read
`rawSampleSizeInBits / 8` bytes in the channel's byte order, sign-extend,
and scale.  Returns the `(raw, scaled)` pair and the remaining stream. -/
def chanStepU (chan : ChannelInfo) (buf : List Nat) : (Int × ℚ) × List Nat :=
  let bytes := chan.rawSampleSizeInBits / 8
  let r := match chan.compressionByteOrder with
    | ByteOrder.LittleEndian => readLEAux bytes 0 0 buf
    | ByteOrder.BigEndian => readBEAux bytes 0 buf
  let vi := toInt32 (signExtendU chan r.1)
  ((vi, polyEval chan.polynomialScalingCoeffChain vi), r.2)

/-- The per-sample channel loop.  The `Bool` is `false` when the channel
chain ran out before `numberOfChannels` (the C `chan==NULL` → `goto Error`),
in which case the partially decoded sample is discarded (C never increments
`numSamples` for it). -/
def sampleStepU : Nat → List ChannelInfo → List Nat → List (Int × ℚ) × List Nat × Bool
  | 0, _, buf => ([], buf, true)
  | _+1, [], buf => ([], buf, false)
  | n+1, c :: cs, buf =>
    let r := chanStepU c buf
    let s := sampleStepU n cs r.2
    (r.1 :: s.1, s.2.1, s.2.2)

/-- The per-block sample loop (`for(iSamp=0;iSamp<readBlockSize;++iSamp)`). -/
def blockStepU (info : DataFileInfo) : Nat → List Nat → List (List (Int × ℚ)) × List Nat × Bool
  | 0, buf => ([], buf, true)
  | s+1, buf =>
    let r := sampleStepU info.numberOfChannels info.channelInfoChain buf
    if r.2.2 then
      let b := blockStepU info s r.2.1
      (r.1 :: b.1, b.2.1, b.2.2)
    else ([], r.2.1, false)

/-- The `while (numBytes)` block loop, fuel-indexed.  `none` = fuel ran out
(the C loop does not terminate within that many iterations); a `goto Error`
returns the samples decoded so far, exactly as the C returns `numSamples`. -/
def decodeUAux (info : DataFileInfo) : Nat → List Nat → Option (List (List (Int × ℚ)))
  | 0, buf => if buf = [] then some [] else none
  | fuel+1, buf =>
    if buf = [] then some []
    else
      let b := blockStepU info info.readBlockSize buf
      if b.2.2 then
        match decodeUAux info fuel b.2.1 with
        | none => none
        | some tail => some (b.1 ++ tail)
      else some b.1

/-- `DecodeDataWithoutPacking`: samples are returned sample-major, one
`(raw, scaled)` pair per channel. -/
def DecodeDataWithoutPacking (info : DataFileInfo) (buf : List Nat) :
    Option (List (List (Int × ℚ))) :=
  decodeUAux info (buf.length + 1) buf

/-! ## Bit-packed decode path (`DecodeDataWithPacking`) -/

/-- The mutable cursor of the packed decoder: current byte `ch`, bit
position within it, bytes pulled in the current block (`byteCount`), and
the remaining byte stream (`rawData`/`numBytes`). -/
structure PackState where
  ch : Nat
  bitPos : Nat
  byteCount : Nat
  rest : List Nat
deriving DecidableEq, Repr

/-- The `while (bitCount < size)` bit-extraction loop (source lines
345–364): shift the accumulator left, add bit `(8 - bitPos - 1)` of the
current byte, and pull the next byte when 8 bits are consumed, bounded by
`readBlockSizeInBytes`.  `none` is the `numBytes==0` → `goto Error` path. -/
def extractBits (rbsb : Nat) : Nat → Nat → PackState → Option (Nat × PackState)
  | 0, val, st => some (val, st)
  | n+1, val, st =>
    let val' := 2 * val + ((st.ch >>> (8 - st.bitPos - 1)) &&& 1)
    let bitPos' := st.bitPos + 1
    if bitPos' = 8 ∧ st.byteCount < rbsb then
      match st.rest with
      | [] => none
      | b :: r => extractBits rbsb n val' ⟨b, 0, st.byteCount + 1, r⟩
    else
      extractBits rbsb n val' ⟨st.ch, bitPos', st.byteCount, st.rest⟩

/-- `(chan->rawSampleJustification==DAQmx_Val_LeftJustified ?
chan->rawSampleSizeInBits : chan->rawSampleResolution)` (source line 339). -/
def rawWidth (chan : ChannelInfo) : Nat :=
  match chan.rawSampleJustification with
  | Justification.Left => chan.rawSampleSizeInBits
  | Justification.Right => chan.rawSampleResolution

/-- One channel of one sample in the packed path (source lines 330–375):
extract `compressedSampleSizeInBits` bits, shift back in the `lsb` lost
bits, sign-extend at the reconstructed width, and scale. -/
def chanStepP (rbsb : Nat) (chan : ChannelInfo) (st : PackState) :
    Option ((Int × ℚ) × PackState) :=
  let size := chan.compressedSampleSizeInBits
  let lsb := rawWidth chan - size
  let realsize := size + lsb
  let signmask := 2 ^ (realsize - 1)
  let extendmask := 2 ^ 32 - 2 ^ realsize
  match extractBits rbsb size 0 st with
  | none => none
  | some (v, st') =>
    let v1 := v <<< lsb
    let v2 := if chan.signedNumber ∧ realsize < 32 ∧ v1 &&& signmask ≠ 0
      then v1 ||| extendmask else v1
    let vi := toInt32 v2
    some ((vi, polyEval chan.polynomialScalingCoeffChain vi), st')

/-- Per-sample channel loop of the packed path; `none` covers both the
`chan==NULL` and the byte-exhaustion `goto Error`, which discard the
current (incomplete) sample. -/
def sampleStepP (rbsb : Nat) : Nat → List ChannelInfo → PackState →
    Option (List (Int × ℚ) × PackState)
  | 0, _, st => some ([], st)
  | _+1, [], _ => none
  | n+1, c :: cs, st =>
    match chanStepP rbsb c st with
    | none => none
    | some (v, st') =>
      match sampleStepP rbsb n cs st' with
      | none => none
      | some (vs, st'') => some (v :: vs, st'')

/-- Per-block sample loop of the packed path.  On `goto Error` the block
returns the complete samples decoded so far and no continuation state. -/
def blockLoopP (info : DataFileInfo) : Nat → PackState →
    List (List (Int × ℚ)) × Option PackState
  | 0, st => ([], some st)
  | s+1, st =>
    match sampleStepP info.readBlockSizeInBytes info.numberOfChannels info.channelInfoChain st with
    | none => ([], none)
    | some (vs, st') =>
      let b := blockLoopP info s st'
      (vs :: b.1, b.2)

/-- The `while (numBytes)` loop of the packed path: each block pulls its
first byte unconditionally (`ch=*rawData++; byteCount=1; bitPos=0`). -/
def decodePAux (info : DataFileInfo) : Nat → List Nat → Option (List (List (Int × ℚ)))
  | 0, buf => if buf = [] then some [] else none
  | fuel+1, buf =>
    match buf with
    | [] => some []
    | b :: rest =>
      let r := blockLoopP info info.readBlockSize ⟨b, 0, 1, rest⟩
      match r.2 with
      | none => some r.1
      | some st' =>
        match decodePAux info fuel st'.rest with
        | none => none
        | some tail => some (r.1 ++ tail)

def DecodeDataWithPacking (info : DataFileInfo) (buf : List Nat) :
    Option (List (List (Int × ℚ))) :=
  decodePAux info (buf.length + 1) buf

/-! ## Path selection (`ReadScaleAndPlotDataFileData`, lines 124–132) -/

/-- The condition choosing `DecodeDataWithoutPacking`, applied to the head
of the channel chain:
`compressionType==DAQmx_Val_None || (compressionByteOrder==LittleEndian &&
compressedSampleSizeInBits%8==0)`. -/
def unpackedPathCond (chan : ChannelInfo) : Bool :=
  chan.compressionType = CompressionType.None ∨
    (chan.compressionByteOrder = ByteOrder.LittleEndian ∧
      chan.compressedSampleSizeInBits % 8 = 0)

/-! ## Manifest parser (`ParseDataFileHeader`, lines 146–220)

`fscanf` is embedded by pre-scanned field records: each field holds the
value the corresponding `fscanf` conversion would assign.  The checks the
C performs on those values are translated literally. -/

/-- The fields scanned for one `[Task0Channel%ld]` section. -/
structure ChannelFields where
  channelNum : Nat
  name : String
  rawSampleResolution : Nat
  rawSampleSizeInBits : Nat
  rawSampleJustification : String
  signedNumber : String
  compressionType : String
  compressedSampleSizeInBits : Nat
  compressionByteOrder : String
  polynomialScalingCoeffs : String
deriving DecidableEq, Repr

/-- The fields scanned from the header.  `hasBinaryMarker` models the
final `fscanf("[BinaryData]\n") / fscanf("Begin=Here\n")` EOF checks:
it is `false` iff the file ends before that point (the only way those
calls return a negative value). -/
structure HeaderFields where
  version : String
  headerSize : Nat
  numberOfTasks : Nat
  taskName : String
  numberOfChannels : Nat
  readBlockSize : Nat
  readBlockSizeInBytes : Nat
  channels : List ChannelFields
  hasBinaryMarker : Bool
deriving DecidableEq, Repr

/-- Modelled from `sscanf(coeffStr,"%le",…)` on the decimal/scientific
forms the encoder writes (`%0.15lE`): sign, integer part, optional
fraction, optional exponent, read exactly as a rational.  Binary
floating-point rounding is not modelled; no claim in scope depends on the
numeric value of a parsed coefficient. -/
def digitsVal (l : List Char) : Nat :=
  l.foldl (fun a c => 10 * a + (c.toNat - 48)) 0

def takeDigits (l : List Char) : List Char × List Char :=
  (l.takeWhile Char.isDigit, l.dropWhile Char.isDigit)

def sciToRat (s : String) : ℚ :=
  let p0 := match s.toList with
    | '-' :: r => (true, r)
    | '+' :: r => (false, r)
    | l => (false, l)
  let p1 := takeDigits p0.2
  let p2 := match p1.2 with
    | '.' :: r => takeDigits r
    | l => ([], l)
  let p3 := match p2.2 with
    | 'E' :: '-' :: r => (true, (takeDigits r).1)
    | 'E' :: '+' :: r => (false, (takeDigits r).1)
    | 'E' :: r => (false, (takeDigits r).1)
    | 'e' :: '-' :: r => (true, (takeDigits r).1)
    | 'e' :: '+' :: r => (false, (takeDigits r).1)
    | 'e' :: r => (false, (takeDigits r).1)
    | _ => (false, [])
  let mant : ℚ := (digitsVal p1.1 : ℚ) + (digitsVal p2.1 : ℚ) / (10 : ℚ) ^ p2.1.length
  let mant : ℚ := if p0.1 then -mant else mant
  let e : ℤ := if p3.1 then -(digitsVal p3.2 : ℤ) else (digitsVal p3.2 : ℤ)
  mant * (10 : ℚ) ^ e

/-- `strtok(coeffBuff,";")` then `sscanf("%le")` per token: `strtok`
treats runs of delimiters as one and yields no empty tokens. -/
def parseCoeffs (s : String) : List ℚ :=
  ((s.splitOn ";").filter (fun t => t ≠ "")).map sciToRat

/-- Conversion and checks for one channel section (lines 177–209):
reject when the section index does not equal the loop index, or the
coefficient field is empty or begins with a semicolon. -/
def parseChannel (i : Nat) (cf : ChannelFields) : Option ChannelInfo :=
  if cf.channelNum ≠ i ∨ cf.polynomialScalingCoeffs = "" ∨
      cf.polynomialScalingCoeffs.front = ';' then none
  else some {
    rawSampleResolution := cf.rawSampleResolution
    rawSampleSizeInBits := cf.rawSampleSizeInBits
    rawSampleJustification :=
      if cf.rawSampleJustification = "Left" then Justification.Left else Justification.Right
    signedNumber := cf.signedNumber = "TRUE"
    compressionType :=
      if cf.compressionType = "LosslessPacking" then CompressionType.LosslessPacking
      else if cf.compressionType = "LossyLSBRemoval" then CompressionType.LossyLSBRemoval
      else CompressionType.None
    compressedSampleSizeInBits := cf.compressedSampleSizeInBits
    compressionByteOrder :=
      if cf.compressionByteOrder = "LittleEndian" then ByteOrder.LittleEndian
      else ByteOrder.BigEndian
    polynomialScalingCoeffChain := parseCoeffs cf.polynomialScalingCoeffs }

/-- The channel loop (`for(;i<info.numberOfChannels;++i)`); a missing
section models the `fscanf` failure return. -/
def parseChannels : Nat → Nat → List ChannelFields → Option (List ChannelInfo)
  | _, 0, _ => some []
  | _, _+1, [] => none
  | i, n+1, cf :: rest =>
    match parseChannel i cf with
    | none => none
    | some c =>
      match parseChannels (i + 1) n rest with
      | none => none
      | some cs => some (c :: cs)

/-- `ParseDataFileHeader`: `NULL` (`none`) on version mismatch, channel
count `< 1`, any channel-section rejection, or a file that ends before
the `[BinaryData]`/`Begin=Here` marker.  No partial manifest escapes. -/
def ParseDataFileHeader (hf : HeaderFields) : Option DataFileInfo :=
  if hf.version ≠ "1.0.0" ∨ hf.numberOfChannels < 1 then none
  else
    match parseChannels 0 hf.numberOfChannels hf.channels with
    | none => none
    | some chans =>
      if hf.hasBinaryMarker then
        some ⟨hf.numberOfChannels, hf.readBlockSize, hf.readBlockSizeInBytes, chans⟩
      else none

/-- `ReadScaleAndPlotDataFileData` (lines 107–144) without the I/O and
allocation plumbing: parse the header, pick the decode path from the
first channel, decode, and return `numSamples > 0`.  The C dereferences
the channel chain unconditionally; the chain is nonempty whenever the
parser succeeds, and an empty chain is modelled as failure. -/
def ReadScaleAndPlotDataFileData (hf : HeaderFields) (buf : List Nat) : Bool :=
  match ParseDataFileHeader hf with
  | none => false
  | some info =>
    match info.channelInfoChain with
    | [] => false
    | c0 :: _ =>
      let r := if unpackedPathCond c0 then DecodeDataWithoutPacking info buf
               else DecodeDataWithPacking info buf
      match r with
      | none => false
      | some ss => ss.length > 0

/-! ## Encoder header construction (`CreateDataFileHeader`, lines 153–189)

The header is a character list; the parts produced by the DAQ attribute
queries (task entry and channel entries) are abstracted as the `body`
parameter, everything written by fixed `strcpy`/`strcat` calls is
literal. -/

def placeholderStr : List Char := "0deadBEEF0".toList

def hdrStart : List Char := "[DAQCompressedBinaryFile]\nVersion=1.0.0\nHeaderSize=".toList

def hdrAfterSize (body : List Char) : List Char :=
  "\nNumberOfTasks=1\n".toList ++ body ++ "[BinaryData]\nBegin=Here\n".toList

/-- The header as first written, with the `0deadBEEF0` placeholder. -/
def initialHeader (body : List Char) : List Char :=
  hdrStart ++ placeholderStr ++ hdrAfterSize body

/-- Zero-padded decimal of width `w` (`sprintf("%010d", …)` for `w = 10`):
little-endian digit extraction with `w` as fuel, then left-padded. -/
def decDigitsAux : Nat → Nat → List Char
  | 0, _ => []
  | fuel+1, n =>
    if n = 0 then []
    else Char.ofNat (48 + n % 10) :: decDigitsAux fuel (n / 10)

def padDec (w n : Nat) : List Char :=
  let ds := (decDigitsAux w n).reverse
  List.replicate (w - ds.length) '0' ++ ds

/-- Decimal value of a digit string (how the decoder's
`fscanf("HeaderSize=%ld")` reads the patched field back). -/
def decValue (l : List Char) : Nat :=
  l.foldl (fun a c => 10 * a + (c.toNat - 48)) 0

/-- `strstr` + in-place `sprintf` + restored byte: replace the first
occurrence of `pat` by the same-length `rep`. -/
def patchAt : List Char → List Char → List Char → List Char
  | [], _, _ => []
  | c :: cs, pat, rep =>
    if pat.isPrefixOf (c :: cs) then rep ++ (c :: cs).drop pat.length
    else c :: patchAt cs pat rep

/-- `CreateDataFileHeader`: write the header with the placeholder,
measure the file size, and patch the field in place with the zero-padded
decimal of that size. -/
def CreateDataFileHeader (body : List Char) : List Char :=
  patchAt (initialHeader body) placeholderStr (padDec 10 (initialHeader body).length)

/-! ## Reference packer (spec side of claim C1)

Modelled from the spec: packing 12-bit (generally `w`-bit) values
MSB-first with no padding between samples; the bit stream is padded with
zero bits to a whole number of bytes.  The repository contains no
software packer (packing happens inside the DAQ driver), so this is the
spec's description of the on-disk layout. -/

def padTo8 (l : List Nat) : List Nat :=
  l ++ List.replicate (8 - l.length) 0

def bitsToByte (l : List Nat) : Nat :=
  bitsToNatAux 0 (padTo8 l)

/-- Pack the `w`-bit values of `vals` MSB-first into bytes. -/
def packBytes (w : Nat) (vals : List Nat) : List Nat :=
  let bits := vals.flatMap (natToBits w)
  (List.range ((bits.length + 7) / 8)).map
    (fun i => bitsToByte ((bits.drop (8 * i)).take 8))

/-- Two's-complement reading at width 12: the raw integer the decoder
hands to scaling for a packed 12-bit pattern. -/
def tc12 (signed : Bool) (v : Nat) : Int :=
  if signed ∧ 2 ^ 11 ≤ v then (v : Int) - 2 ^ 12 else (v : Int)

/-- The claim-C1 manifest: one channel, `compressedSampleSizeInBits = 12`,
`lsb = 0` (resolution 12, right-justified), identity scaling. -/
def info12 (signed : Bool) (len : Nat) : DataFileInfo :=
  { numberOfChannels := 1
    readBlockSize := len
    readBlockSizeInBytes := (12 * len + 7) / 8
    channelInfoChain := [{
      rawSampleResolution := 12
      rawSampleSizeInBits := 12
      rawSampleJustification := Justification.Right
      signedNumber := signed
      compressionType := CompressionType.LossyLSBRemoval
      compressedSampleSizeInBits := 12
      compressionByteOrder := ByteOrder.BigEndian
      polynomialScalingCoeffChain := [0, 1] }] }

/-! ## Projections used by concrete evaluations -/

/-- The raw integers handed to polynomial scaling, dropping the scaled
`ℚ` components. -/
def rawValues (r : Option (List (List (Int × ℚ)))) : Option (List (List Int)) :=
  r.map (List.map (List.map Prod.fst))

/-- Number of decoded samples (`numSamples`). -/
def numSamples (r : Option (List (List (Int × ℚ)))) : Option Nat :=
  r.map List.length

/-! ## Claim C4: decode-path selection -/

/-- The path condition as the spec's words state it (claim C4): unpacked
iff compression mode is `None` or the stored width is byte-aligned; byte
order not consulted.  Stated for comparison with `unpackedPathCond`,
which is translated from the source. -/
def specPathCond (chan : ChannelInfo) : Bool :=
  chan.compressionType = CompressionType.None ∨ chan.compressedSampleSizeInBits % 8 = 0

/-- A channel on which the two conditions disagree: packed lossless
compression, big-endian byte order, byte-aligned 16-bit stored width. -/
def bigEndianAlignedChan : ChannelInfo :=
  { rawSampleResolution := 16
    rawSampleSizeInBits := 16
    rawSampleJustification := Justification.Right
    signedNumber := false
    compressionType := CompressionType.LosslessPacking
    compressedSampleSizeInBits := 16
    compressionByteOrder := ByteOrder.BigEndian
    polynomialScalingCoeffChain := [0, 1] }

/-- Claim C4 as stated is false: for a big-endian channel with
byte-aligned compressed width and packed compression, the spec's
condition selects the unpacked path but the source's condition does not
— byte order does affect the selection. -/
theorem claim_C4_cex :
    specPathCond bigEndianAlignedChan = true ∧
      unpackedPathCond bigEndianAlignedChan = false := by
  decide

/-- Claim C4 (amended): the decoder selects the unpacked path exactly
when the first channel's compression mode is `None`, or its byte order is
little-endian and its stored width is byte-aligned. -/
theorem claim_C4 (chan : ChannelInfo) :
    unpackedPathCond chan = true ↔
      (chan.compressionType = CompressionType.None ∨
        (chan.compressionByteOrder = ByteOrder.LittleEndian ∧
          chan.compressedSampleSizeInBits % 8 = 0)) := by
  simp [unpackedPathCond]

/-! ## Claim C2: sign extension in the unpacked path -/

/-- A signed 8-bit little-endian uncompressed channel with identity
scaling, `readBlockSize = 1`. -/
def signed8Info : DataFileInfo :=
  { numberOfChannels := 1
    readBlockSize := 1
    readBlockSizeInBytes := 1
    channelInfoChain := [{
      rawSampleResolution := 8
      rawSampleSizeInBits := 8
      rawSampleJustification := Justification.Right
      signedNumber := true
      compressionType := CompressionType.None
      compressedSampleSizeInBits := 8
      compressionByteOrder := ByteOrder.LittleEndian
      polynomialScalingCoeffChain := [0, 1] }] }

/-- Claim C2 names the intended behaviour (`0xFF` at signed width 8
decodes to `-1`), but the unpacked path computes its extension mask as
`0xFFFFFFFF - (1 << (32-size)) + 1`, which covers bits above `32 - size`
rather than bits above `size` (the two agree only at `size = 16`).  At
width 8 the byte `0xFF` is OR-ed with `0xFF000000`, producing the 32-bit
pattern `0xFF0000FF`, i.e. `-16776961`, not `-1`. -/
theorem claim_C2 :
    rawValues (DecodeDataWithoutPacking signed8Info [255]) = some [[-16776961]] ∧
      rawValues (DecodeDataWithoutPacking signed8Info [255]) ≠ some [[-1]] := by
  decide

/-! ## Claim C6: mixed per-channel formats are not rejected -/

/-- A manifest declaring two channels with different compression and raw
formats (`None`/16-bit little-endian vs `LosslessPacking`/24-bit
big-endian). -/
def mixedFormatHeader : HeaderFields :=
  { version := "1.0.0"
    headerSize := 300
    numberOfTasks := 1
    taskName := "task"
    numberOfChannels := 2
    readBlockSize := 1
    readBlockSizeInBytes := 5
    channels := [
      { channelNum := 0
        name := "ai0"
        rawSampleResolution := 16
        rawSampleSizeInBits := 16
        rawSampleJustification := "Right"
        signedNumber := "FALSE"
        compressionType := "None"
        compressedSampleSizeInBits := 16
        compressionByteOrder := "LittleEndian"
        polynomialScalingCoeffs := "0;1;" },
      { channelNum := 1
        name := "ai1"
        rawSampleResolution := 24
        rawSampleSizeInBits := 24
        rawSampleJustification := "Right"
        signedNumber := "FALSE"
        compressionType := "LosslessPacking"
        compressedSampleSizeInBits := 24
        compressionByteOrder := "BigEndian"
        polynomialScalingCoeffs := "0;1;" }]
    hasBinaryMarker := true }

/-- One sample of data for `mixedFormatHeader`: 2 bytes for channel 0
followed by 3 bytes for channel 1. -/
def mixedFormatData : List Nat := [1, 0, 0, 0, 2]

/-- Claim C6 says a file with mixed per-channel compression/raw formats
is rejected with an unsupported-configuration error; the source contains
no such check (its own header comment notwithstanding): the mixed
manifest parses, is decoded heterogeneously through the path chosen by
the *first* channel, and the read reports success. -/
theorem claim_C6 :
    ReadScaleAndPlotDataFileData mixedFormatHeader mixedFormatData = true ∧
      mixedFormatHeader.channels.map ChannelFields.compressionType =
        ["None", "LosslessPacking"] := by
  decide

/-! ## Claim C7: parser rejections -/

/-- If the channel loop succeeds, every required section is present, its
index equals its position, and its coefficient field is well-formed. -/
lemma parseChannels_some : ∀ (n i : Nat) (l : List ChannelFields) (r : List ChannelInfo),
    parseChannels i n l = some r →
    ∀ j, j < n → ∃ cf, l.get? j = some cf ∧ cf.channelNum = i + j ∧
      cf.polynomialScalingCoeffs ≠ "" ∧ cf.polynomialScalingCoeffs.front ≠ ';' := by
  intro n
  induction n with
  | zero => intro i l r _ j hj; omega
  | succ m ih =>
    intro i l r hp j hj
    match l with
    | [] => simp [parseChannels] at hp
    | cf :: rest =>
      rw [parseChannels] at hp
      rcases hcf : parseChannel i cf with _ | c
      · rw [hcf] at hp; exact absurd hp (by simp)
      · rw [hcf] at hp
        have hok : ¬(cf.channelNum ≠ i ∨ cf.polynomialScalingCoeffs = "" ∨
            cf.polynomialScalingCoeffs.front = ';') := by
          intro hbad
          rw [parseChannel, if_pos hbad] at hcf
          exact absurd hcf (by simp)
        push_neg at hok
        match j with
        | 0 => exact ⟨cf, rfl, by omega, hok.2.1, hok.2.2⟩
        | j'+1 =>
          rcases hrest : parseChannels (i + 1) m rest with _ | cs
          · rw [hrest] at hp; exact absurd hp (by simp)
          · obtain ⟨cf', hget, hnum, hne, hfront⟩ :=
              ih (i + 1) rest cs hrest j' (by omega)
            exact ⟨cf', hget, by omega, hne, hfront⟩

/-- Claim C7: the parser returns no manifest whenever the version string
is not exactly `"1.0.0"`, the declared channel count is `< 1`, some
channel section's index differs from its position (indices must be
strictly increasing from 0), or some channel's scaling-coefficient field
is empty or begins with a semicolon. -/
theorem claim_C7 (hf : HeaderFields)
    (h : hf.version ≠ "1.0.0" ∨ hf.numberOfChannels < 1 ∨
      (∃ j < hf.numberOfChannels, ∃ cf, hf.channels.get? j = some cf ∧ cf.channelNum ≠ j) ∨
      (∃ j < hf.numberOfChannels, ∃ cf, hf.channels.get? j = some cf ∧
        (cf.polynomialScalingCoeffs = "" ∨ cf.polynomialScalingCoeffs.front = ';'))) :
    ParseDataFileHeader hf = none := by
  by_cases h0 : hf.version ≠ "1.0.0" ∨ hf.numberOfChannels < 1
  · rw [ParseDataFileHeader, if_pos h0]
  · rw [ParseDataFileHeader, if_neg h0]
    push_neg at h0
    have hchan : ∃ j < hf.numberOfChannels, ∃ cf, hf.channels.get? j = some cf ∧
        (cf.channelNum ≠ j ∨ cf.polynomialScalingCoeffs = "" ∨
          cf.polynomialScalingCoeffs.front = ';') := by
      rcases h with h | h | ⟨j, hj, cf, hget, hbad⟩ | ⟨j, hj, cf, hget, hbad⟩
      · exact absurd h0.1 h
      · omega
      · exact ⟨j, hj, cf, hget, Or.inl hbad⟩
      · exact ⟨j, hj, cf, hget, Or.inr hbad⟩
    rcases hp : parseChannels 0 hf.numberOfChannels hf.channels with _ | chans
    · rfl
    · obtain ⟨j, hj, cf, hget, hbad⟩ := hchan
      obtain ⟨cf', hget', hnum, hne, hfront⟩ :=
        parseChannels_some hf.numberOfChannels 0 hf.channels chans hp j hj
      rw [hget] at hget'
      cases hget'
      rcases hbad with hbad | hbad | hbad
      · omega
      · exact absurd hbad hne
      · exact absurd hbad hfront

/-- A manifest whose version string reads `2.0.0`. -/
def badVersionHeader : HeaderFields :=
  { version := "2.0.0"
    headerSize := 300
    numberOfTasks := 1
    taskName := "task"
    numberOfChannels := 1
    readBlockSize := 1
    readBlockSizeInBytes := 2
    channels := [{
      channelNum := 0
      name := "ai0"
      rawSampleResolution := 16
      rawSampleSizeInBits := 16
      rawSampleJustification := "Right"
      signedNumber := "FALSE"
      compressionType := "None"
      compressedSampleSizeInBits := 16
      compressionByteOrder := "LittleEndian"
      polynomialScalingCoeffs := "0;1;" }]
    hasBinaryMarker := true }

theorem claim_C7_witness : ParseDataFileHeader badVersionHeader = none :=
  claim_C7 badVersionHeader (Or.inl (by decide))

/-! ## Byte accounting of the unpacked decode loop (claims C3 and C10) -/

/-- Bytes one channel consumes per sample (`bytes = size / 8`). -/
def chanBytes (chan : ChannelInfo) : Nat :=
  chan.rawSampleSizeInBits / 8

/-- Bytes one sample (all channels) consumes. -/
def sampleBytes (chans : List ChannelInfo) : Nat :=
  (chans.map chanBytes).sum

/-- Bytes one block consumes. -/
def bytesPerBlock (info : DataFileInfo) : Nat :=
  info.readBlockSize * sampleBytes info.channelInfoChain

lemma readLEAux_rest : ∀ (bytes iByte val : Nat) (buf : List Nat),
    (readLEAux bytes iByte val buf).2 = buf.drop bytes := by
  intro bytes
  induction bytes with
  | zero => intro iByte val buf; rfl
  | succ b ih =>
    intro iByte val buf
    match buf with
    | [] => simp [readLEAux]
    | x :: rest => simp [readLEAux, ih]

lemma readBEAux_rest : ∀ (bytes val : Nat) (buf : List Nat),
    (readBEAux bytes val buf).2 = buf.drop bytes := by
  intro bytes
  induction bytes with
  | zero => intro val buf; rfl
  | succ b ih =>
    intro val buf
    match buf with
    | [] => simp [readBEAux]
    | x :: rest => simp [readBEAux, ih]

lemma chanStepU_rest (chan : ChannelInfo) (buf : List Nat) :
    (chanStepU chan buf).2 = buf.drop (chanBytes chan) := by
  rw [chanStepU, chanBytes]
  cases chan.compressionByteOrder <;> simp [readLEAux_rest, readBEAux_rest]

lemma sampleStepU_spec : ∀ (chans : List ChannelInfo) (buf : List Nat),
    ∃ vs, sampleStepU chans.length chans buf = (vs, buf.drop (sampleBytes chans), true) ∧
      vs.length = chans.length := by
  intro chans
  induction chans with
  | nil => intro buf; exact ⟨[], rfl, rfl⟩
  | cons c cs ih =>
    intro buf
    obtain ⟨vs, hstep, hlen⟩ := ih (buf.drop (chanBytes c))
    refine ⟨(chanStepU c buf).1 :: vs, ?_, by simp [hlen]⟩
    rw [List.length_cons, sampleStepU, chanStepU_rest, hstep]
    simp [sampleBytes, List.drop_drop, Nat.add_comm]

lemma blockStepU_spec (info : DataFileInfo)
    (h2 : info.numberOfChannels = info.channelInfoChain.length) :
    ∀ (k : Nat) (buf : List Nat),
    ∃ ss, blockStepU info k buf =
        (ss, buf.drop (k * sampleBytes info.channelInfoChain), true) ∧ ss.length = k := by
  intro k
  induction k with
  | zero => intro buf; exact ⟨[], by simp [blockStepU], rfl⟩
  | succ m ih =>
    intro buf
    obtain ⟨vs, hstep, _⟩ := sampleStepU_spec info.channelInfoChain buf
    obtain ⟨ss, hblk, hlen⟩ := ih (buf.drop (sampleBytes info.channelInfoChain))
    refine ⟨vs :: ss, ?_, by simp [hlen]⟩
    rw [blockStepU, h2, hstep]
    simp only [if_pos rfl]
    rw [hblk]
    simp [List.drop_drop, Nat.succ_mul, Nat.add_comm]

/-- Ceiling-division step: for a nonempty buffer,
`ceil(len/b) = ceil((len - b)/b) + 1`. -/
lemma ceil_div_step (len b : Nat) (hb : 1 ≤ b) (hlen : 1 ≤ len) :
    (len + b - 1) / b = (len - b + b - 1) / b + 1 := by
  rcases Nat.le_total len b with hle | hle
  · have h1 : len - b = 0 := by omega
    rw [h1]
    have h2 : (len + b - 1) / b = 1 := Nat.div_eq_of_lt_le (by omega) (by omega)
    have h3 : (0 + b - 1) / b = 0 := Nat.div_eq_of_lt (by omega)
    omega
  · have h1 : len - b + b - 1 + b = len + b - 1 := by omega
    calc (len + b - 1) / b = (len - b + b - 1 + b) / b := by rw [h1]
    _ = (len - b + b - 1) / b + 1 := Nat.add_div_right _ (by omega)

/-- With a positive block size and samples per block, the unpacked block
loop runs `ceil(numBytes / bytesPerBlock)` times, emits `readBlockSize`
samples per iteration, and any fuel above `numBytes` suffices. -/
lemma decodeUAux_count (info : DataFileInfo)
    (h2 : info.numberOfChannels = info.channelInfoChain.length)
    (hbpb : 1 ≤ bytesPerBlock info) :
    ∀ (fuel : Nat) (buf : List Nat), buf.length < fuel →
    ∃ s, decodeUAux info fuel buf = some s ∧
      s.length = ((buf.length + bytesPerBlock info - 1) / bytesPerBlock info) *
        info.readBlockSize := by
  intro fuel
  induction fuel with
  | zero => intro buf h; omega
  | succ m ih =>
    intro buf hlt
    match buf with
    | [] =>
      refine ⟨[], by rw [decodeUAux, if_pos rfl], ?_⟩
      have h0 : (0 + bytesPerBlock info - 1) / bytesPerBlock info = 0 :=
        Nat.div_eq_of_lt (by omega)
      simp only [List.length_nil, h0, Nat.zero_mul]
    | x :: rest =>
      obtain ⟨ss, hblk, hsl⟩ := blockStepU_spec info h2 info.readBlockSize (x :: rest)
      have hblk' : blockStepU info info.readBlockSize (x :: rest) =
          (ss, (x :: rest).drop (bytesPerBlock info), true) := hblk
      have hdl : ((x :: rest).drop (bytesPerBlock info)).length =
          (x :: rest).length - bytesPerBlock info := List.length_drop _ _
      obtain ⟨tail, htail, htl⟩ := ih ((x :: rest).drop (bytesPerBlock info))
        (by rw [hdl]; simp only [List.length_cons] at hlt ⊢; omega)
      refine ⟨ss ++ tail, ?_, ?_⟩
      · rw [decodeUAux, if_neg (by simp)]
        simp only [hblk', htail]
        simp
      · rw [List.length_append, hsl, htl, hdl]
        have hstep := ceil_div_step (x :: rest).length (bytesPerBlock info) hbpb (by simp)
        rw [hstep]
        ring

/-! ## Claim C3: truncation behaviour -/

/-- One 16-bit little-endian uncompressed channel, `readBlockSize = 2`,
so a block is 4 bytes. -/
def truncatedInfo : DataFileInfo :=
  { numberOfChannels := 1
    readBlockSize := 2
    readBlockSizeInBytes := 4
    channelInfoChain := [{
      rawSampleResolution := 16
      rawSampleSizeInBits := 16
      rawSampleJustification := Justification.Right
      signedNumber := false
      compressionType := CompressionType.None
      compressedSampleSizeInBits := 16
      compressionByteOrder := ByteOrder.LittleEndian
      polynomialScalingCoeffChain := [0, 1] }] }

/-- Claim C3 is false for the unpacked path: a 5-byte region (one full
4-byte block plus one byte) decodes to 4 samples, not
`floor(5/4) * 2 = 2` — the partial last block is not dropped; its
missing bytes simply read as nothing and the block's samples are still
emitted. -/
theorem claim_C3_cex :
    numSamples (DecodeDataWithoutPacking truncatedInfo [1, 0, 2, 0, 3]) = some 4 ∧
      numSamples (DecodeDataWithoutPacking truncatedInfo [1, 0, 2, 0, 3]) ≠
        some (5 / bytesPerBlock truncatedInfo * truncatedInfo.readBlockSize) := by
  decide

/-! ## Claim C10: termination of the unpacked decoder -/

/-- The C `while (numBytes)` loop terminates iff some finite fuel
suffices. -/
def TerminatesU (info : DataFileInfo) (buf : List Nat) : Prop :=
  ∃ fuel, (decodeUAux info fuel buf).isSome

lemma sampleStepU_len_le : ∀ (n : Nat) (chans : List ChannelInfo) (buf : List Nat),
    (sampleStepU n chans buf).2.1.length ≤ buf.length := by
  intro n
  induction n with
  | zero => intro chans buf; exact Nat.le_refl _
  | succ m ih =>
    intro chans buf
    match chans with
    | [] => exact Nat.le_refl _
    | c :: cs =>
      rw [sampleStepU]
      calc (sampleStepU m cs (chanStepU c buf).2).2.1.length
          ≤ (chanStepU c buf).2.length := ih cs _
        _ ≤ buf.length := by rw [chanStepU_rest]; simp [List.length_drop]

lemma sampleStepU_len_lt (n : Nat) (c : ChannelInfo) (cs : List ChannelInfo)
    (x : Nat) (buf : List Nat) (hc : 8 ≤ c.rawSampleSizeInBits) :
    (sampleStepU (n + 1) (c :: cs) (x :: buf)).2.1.length < (x :: buf).length := by
  rw [sampleStepU]
  have h1 : (sampleStepU n cs (chanStepU c (x :: buf)).2).2.1.length ≤
      (chanStepU c (x :: buf)).2.length := sampleStepU_len_le n cs _
  have h2 : (chanStepU c (x :: buf)).2.length < (x :: buf).length := by
    rw [chanStepU_rest]
    have hb : 1 ≤ chanBytes c := by
      rw [chanBytes]; omega
    simp only [List.length_drop, List.length_cons]
    omega
  exact Nat.lt_of_le_of_lt h1 h2

lemma blockStepU_len_le (info : DataFileInfo) : ∀ (k : Nat) (buf : List Nat),
    (blockStepU info k buf).2.1.length ≤ buf.length := by
  intro k
  induction k with
  | zero => intro buf; exact Nat.le_refl _
  | succ m ih =>
    intro buf
    rw [blockStepU]
    rcases hok : (sampleStepU info.numberOfChannels info.channelInfoChain buf).2.2 with _ | _
    · simp only [hok, Bool.false_eq_true, if_false]
      have := sampleStepU_len_le info.numberOfChannels info.channelInfoChain buf
      simpa using this
    · simp only [hok, if_true]
      calc (blockStepU info m (sampleStepU info.numberOfChannels info.channelInfoChain buf).2.1).2.1.length
          ≤ (sampleStepU info.numberOfChannels info.channelInfoChain buf).2.1.length := ih _
        _ ≤ buf.length := sampleStepU_len_le _ _ _

/-- When the block holds at least one sample, the task at least one
channel, and the first channel reads at least one byte, a block strictly
shrinks a nonempty buffer. -/
lemma blockStepU_len_lt (info : DataFileInfo) (s n : Nat) (c : ChannelInfo)
    (cs : List ChannelInfo) (x : Nat) (buf : List Nat)
    (hrbs : info.readBlockSize = s + 1) (hnc : info.numberOfChannels = n + 1)
    (hchain : info.channelInfoChain = c :: cs) (hc : 8 ≤ c.rawSampleSizeInBits) :
    (blockStepU info info.readBlockSize (x :: buf)).2.1.length < (x :: buf).length := by
  rw [hrbs, blockStepU, hnc, hchain]
  have hlt := sampleStepU_len_lt n c cs x buf hc
  rcases hok : (sampleStepU (n + 1) (c :: cs) (x :: buf)).2.2 with _ | _
  · simp only [hok, Bool.false_eq_true, if_false]
    exact hlt
  · simp only [hok, if_true]
    calc (blockStepU info s (sampleStepU (n + 1) (c :: cs) (x :: buf)).2.1).2.1.length
        ≤ (sampleStepU (n + 1) (c :: cs) (x :: buf)).2.1.length := blockStepU_len_le info s _
      _ < (x :: buf).length := hlt

/-- Claim C10 (amended): the unpacked decoder terminates on every finite
buffer provided every channel is at least 8 bits wide *and* the block
holds at least one sample and the task at least one channel (with
`readBlockSize = 0` or `numberOfChannels = 0` a block consumes no bytes
and the `while (numBytes)` loop never exits). -/
theorem claim_C10 (info : DataFileInfo) (buf : List Nat)
    (hrbs : 1 ≤ info.readBlockSize) (hnc : 1 ≤ info.numberOfChannels)
    (hsz : ∀ c ∈ info.channelInfoChain, 8 ≤ c.rawSampleSizeInBits) :
    TerminatesU info buf := by
  have main : ∀ (bound : Nat) (l : List Nat), l.length ≤ bound → TerminatesU info l := by
    intro bound
    induction bound with
    | zero =>
      intro l hl
      have : l = [] := List.length_eq_zero.mp (by omega)
      exact ⟨1, by rw [this, decodeUAux, if_pos rfl]; rfl⟩
    | succ m ih =>
      intro l hl
      match l with
      | [] => exact ⟨1, by rw [decodeUAux, if_pos rfl]; rfl⟩
      | x :: rest =>
        rcases hok : (blockStepU info info.readBlockSize (x :: rest)).2.2 with _ | _
        · refine ⟨1, ?_⟩
          rw [decodeUAux, if_neg (by simp)]
          simp only [hok, Bool.false_eq_true, if_false]
          rfl
        · match hchain : info.channelInfoChain with
          | [] =>
            exfalso
            obtain ⟨s, hs⟩ := Nat.exists_eq_add_of_le hrbs
            obtain ⟨n, hn⟩ := Nat.exists_eq_add_of_le hnc
            rw [show info.readBlockSize = s + 1 by omega, blockStepU,
              show info.numberOfChannels = n + 1 by omega, hchain] at hok
            simp [sampleStepU] at hok
          | c :: cs =>
            obtain ⟨s, hs⟩ := Nat.exists_eq_add_of_le hrbs
            obtain ⟨n, hn⟩ := Nat.exists_eq_add_of_le hnc
            have hc : 8 ≤ c.rawSampleSizeInBits := hsz c (by rw [hchain]; simp)
            have hlt := blockStepU_len_lt info s n c cs x rest
              (by omega) (by omega) hchain hc
            obtain ⟨f, hf⟩ := ih (blockStepU info info.readBlockSize (x :: rest)).2.1
              (by simp only [List.length_cons] at hl hlt ⊢; omega)
            obtain ⟨tail, htail⟩ := Option.isSome_iff_exists.mp hf
            refine ⟨f + 1, ?_⟩
            rw [decodeUAux, if_neg (by simp)]
            simp only [hok, if_true, htail]
            rfl
  exact main buf.length buf (Nat.le_refl _)

theorem claim_C10_witness : TerminatesU truncatedInfo [1, 0, 2, 0, 3] :=
  claim_C10 truncatedInfo [1, 0, 2, 0, 3] (by decide) (by decide) (by decide)

/-- A manifest with a block of zero samples (`readBlockSize = 0`); its
only channel is 16 bits wide, so the premise of claim C10 as stated
holds, yet no block ever consumes a byte. -/
def zeroBlockInfo : DataFileInfo :=
  { numberOfChannels := 1
    readBlockSize := 0
    readBlockSizeInBytes := 2
    channelInfoChain := [{
      rawSampleResolution := 16
      rawSampleSizeInBits := 16
      rawSampleJustification := Justification.Right
      signedNumber := false
      compressionType := CompressionType.None
      compressedSampleSizeInBits := 16
      compressionByteOrder := ByteOrder.LittleEndian
      polynomialScalingCoeffChain := [0, 1] }] }

lemma decodeUAux_zero_block : ∀ (fuel : Nat) (buf : List Nat), buf ≠ [] →
    decodeUAux zeroBlockInfo fuel buf = none := by
  intro fuel
  induction fuel with
  | zero => intro buf hne; rw [decodeUAux, if_neg hne]
  | succ m ih =>
    intro buf hne
    rw [decodeUAux, if_neg hne]
    have hblk : blockStepU zeroBlockInfo zeroBlockInfo.readBlockSize buf = ([], buf, true) := rfl
    simp only [hblk, if_true, ih buf hne]

/-- Claim C10 as stated is false: `zeroBlockInfo` satisfies the claim's
precondition (its every channel is at least 8 bits wide), yet on the
1-byte buffer `[0]` the unpacked decode loop never terminates. -/
theorem claim_C10_cex :
    (∀ c ∈ zeroBlockInfo.channelInfoChain, 8 ≤ c.rawSampleSizeInBits) ∧
      ¬ TerminatesU zeroBlockInfo [0] := by
  refine ⟨by decide, ?_⟩
  rintro ⟨fuel, hf⟩
  rw [decodeUAux_zero_block fuel [0] (by simp)] at hf
  simp at hf

/-! ## Claim C9: unpacked byte accumulation and the two-channel scenario -/

/-- The little-endian read loop computes `val + Σ byte[i] << (8*i)`. -/
lemma readLEAux_val : ∀ (bytes iByte val : Nat) (buf : List Nat), bytes ≤ buf.length →
    (readLEAux bytes iByte val buf).1 =
      val + ∑ i ∈ Finset.range bytes, buf.getD i 0 * 2 ^ (8 * (iByte + i)) := by
  intro bytes
  induction bytes with
  | zero => intro iByte val buf _; simp [readLEAux]
  | succ b ih =>
    intro iByte val buf hlen
    match buf with
    | [] => simp at hlen
    | x :: rest =>
      have hb : b ≤ rest.length := by
        simp only [List.length_cons] at hlen; omega
      rw [readLEAux, ih (iByte + 1) (val + x * 2 ^ (8 * iByte)) rest hb]
      rw [Finset.sum_range_succ']
      have he : ∀ i, (x :: rest).getD (i + 1) 0 * 2 ^ (8 * (iByte + (i + 1))) =
          rest.getD i 0 * 2 ^ (8 * (iByte + 1 + i)) := by
        intro i
        rw [List.getD_cons_succ]
        congr 2
        omega
      rw [Finset.sum_congr rfl (fun i _ => he i)]
      simp only [List.getD_cons_zero, Nat.add_zero]
      ring

/-- The big-endian read loop computes
`val << (8*bytes) + Σ byte[i] << (8*(bytes-1-i))`. -/
lemma readBEAux_val : ∀ (bytes val : Nat) (buf : List Nat), bytes ≤ buf.length →
    (readBEAux bytes val buf).1 =
      val * 2 ^ (8 * bytes) +
        ∑ i ∈ Finset.range bytes, buf.getD i 0 * 2 ^ (8 * (bytes - 1 - i)) := by
  intro bytes
  induction bytes with
  | zero => intro val buf _; simp [readBEAux]
  | succ b ih =>
    intro val buf hlen
    match buf with
    | [] => simp at hlen
    | x :: rest =>
      have hb : b ≤ rest.length := by
        simp only [List.length_cons] at hlen; omega
      rw [readBEAux, ih (val * 2 ^ 8 + x) rest hb]
      rw [Finset.sum_range_succ']
      have he : ∀ i, (x :: rest).getD (i + 1) 0 * 2 ^ (8 * (b + 1 - 1 - (i + 1))) =
          rest.getD i 0 * 2 ^ (8 * (b - 1 - i)) := by
        intro i
        rw [List.getD_cons_succ]
        congr 2
        omega
      rw [Finset.sum_congr rfl (fun i _ => he i)]
      simp only [List.getD_cons_zero]
      have h0 : b + 1 - 1 - 0 = b := by omega
      rw [h0]
      ring

/-- A 16-bit little-endian uncompressed unsigned channel with identity
scaling `[0.0, 1.0]`. -/
def chanLE16 : ChannelInfo :=
  { rawSampleResolution := 16
    rawSampleSizeInBits := 16
    rawSampleJustification := Justification.Right
    signedNumber := false
    compressionType := CompressionType.None
    compressedSampleSizeInBits := 16
    compressionByteOrder := ByteOrder.LittleEndian
    polynomialScalingCoeffChain := [0, 1] }

/-- The claim-C9 scenario manifest: 2 such channels, one sample per
block. -/
def littleEndian16Info : DataFileInfo :=
  { numberOfChannels := 2
    readBlockSize := 1
    readBlockSizeInBytes := 4
    channelInfoChain := [chanLE16, chanLE16] }

/-- Claim C9: per channel the unpacked decoder reads
`rawSampleSizeInBits / 8` bytes, accumulating `Σ byte[i] << (8*i)` when
little-endian and `(val << 8) | byte[i]` (i.e.
`Σ byte[i] << (8*(n-1-i))`) when big-endian; consequently the raw bytes
`[0x01,0x00, 0x02,0x00]` for one sample of two 16-bit little-endian
identity-scaled channels decode to 1.0 and 2.0. -/
theorem claim_C9 (chan : ChannelInfo) (buf : List Nat)
    (h : chan.rawSampleSizeInBits / 8 ≤ buf.length) :
    (chan.compressionByteOrder = ByteOrder.LittleEndian →
      readLEAux (chan.rawSampleSizeInBits / 8) 0 0 buf =
        (∑ i ∈ Finset.range (chan.rawSampleSizeInBits / 8), buf.getD i 0 * 2 ^ (8 * i),
          buf.drop (chan.rawSampleSizeInBits / 8))) ∧
    (chan.compressionByteOrder = ByteOrder.BigEndian →
      readBEAux (chan.rawSampleSizeInBits / 8) 0 buf =
        (∑ i ∈ Finset.range (chan.rawSampleSizeInBits / 8),
            buf.getD i 0 * 2 ^ (8 * (chan.rawSampleSizeInBits / 8 - 1 - i)),
          buf.drop (chan.rawSampleSizeInBits / 8))) ∧
    (DecodeDataWithoutPacking littleEndian16Info [1, 0, 2, 0]).map
        (List.map (List.map Prod.snd)) = some [[(1 : ℚ), 2]] ∧
    rawValues (DecodeDataWithoutPacking littleEndian16Info [1, 0, 2, 0]) = some [[1, 2]] := by
  refine ⟨?_, ?_, ?_, by decide⟩
  · intro _
    have hv := readLEAux_val (chan.rawSampleSizeInBits / 8) 0 0 buf h
    have hr := readLEAux_rest (chan.rawSampleSizeInBits / 8) 0 0 buf
    simp only [Nat.zero_add] at hv
    exact Prod.ext hv hr
  · intro _
    have hv := readBEAux_val (chan.rawSampleSizeInBits / 8) 0 buf h
    have hr := readBEAux_rest (chan.rawSampleSizeInBits / 8) 0 buf
    simp only [Nat.zero_mul, Nat.pow_zero, Nat.zero_add] at hv
    exact Prod.ext hv hr
  · rw [show DecodeDataWithoutPacking littleEndian16Info [1, 0, 2, 0] =
      some [[((1 : Int), polyEval [0, 1] 1), ((2 : Int), polyEval [0, 1] 2)]] from rfl]
    simp [polyEval, polyEvalAux]

theorem claim_C9_witness :
    (chanLE16.compressionByteOrder = ByteOrder.LittleEndian →
      readLEAux (chanLE16.rawSampleSizeInBits / 8) 0 0 [1, 0, 2, 0] =
        (∑ i ∈ Finset.range (chanLE16.rawSampleSizeInBits / 8),
            ([1, 0, 2, 0] : List Nat).getD i 0 * 2 ^ (8 * i),
          ([1, 0, 2, 0] : List Nat).drop (chanLE16.rawSampleSizeInBits / 8))) ∧
    (chanLE16.compressionByteOrder = ByteOrder.BigEndian →
      readBEAux (chanLE16.rawSampleSizeInBits / 8) 0 [1, 0, 2, 0] =
        (∑ i ∈ Finset.range (chanLE16.rawSampleSizeInBits / 8),
            ([1, 0, 2, 0] : List Nat).getD i 0 *
              2 ^ (8 * (chanLE16.rawSampleSizeInBits / 8 - 1 - i)),
          ([1, 0, 2, 0] : List Nat).drop (chanLE16.rawSampleSizeInBits / 8))) ∧
    (DecodeDataWithoutPacking littleEndian16Info [1, 0, 2, 0]).map
        (List.map (List.map Prod.snd)) = some [[(1 : ℚ), 2]] ∧
    rawValues (DecodeDataWithoutPacking littleEndian16Info [1, 0, 2, 0]) = some [[1, 2]] :=
  claim_C9 chanLE16 [1, 0, 2, 0] (by decide)

/-! ## Claim C8: the HeaderSize patch -/

lemma decDigitsAux_len_le : ∀ (fuel n : Nat), (decDigitsAux fuel n).length ≤ fuel := by
  intro fuel
  induction fuel with
  | zero => intro n; simp [decDigitsAux]
  | succ m ih =>
    intro n
    rw [decDigitsAux]
    rcases Nat.eq_zero_or_pos n with h0 | h0
    · simp [h0]
    · rw [if_neg (by omega)]
      simpa using Nat.succ_le_succ (ih (n / 10))

/-- `%010d` always occupies exactly 10 characters for a 32-bit value. -/
lemma padDec_length (w n : Nat) : (padDec w n).length = w := by
  rw [padDec]
  have := decDigitsAux_len_le w n
  simp only [List.length_append, List.length_replicate, List.length_reverse]
  omega

lemma decValue_replicate_zero : ∀ (k : Nat) (l : List Char),
    decValue (List.replicate k '0' ++ l) = decValue l := by
  intro k
  induction k with
  | zero => intro l; rfl
  | succ m ih =>
    intro l
    rw [List.replicate_succ, List.cons_append]
    show decValue (List.replicate m '0' ++ l) = decValue l
    exact ih l

lemma decValue_decDigitsAux : ∀ (fuel n : Nat), n < 10 ^ fuel →
    decValue ((decDigitsAux fuel n).reverse) = n := by
  intro fuel
  induction fuel with
  | zero => intro n h; interval_cases n; rfl
  | succ m ih =>
    intro n h
    rw [decDigitsAux]
    rcases Nat.eq_zero_or_pos n with h0 | h0
    · simp [h0, decValue]
    · rw [if_neg (by omega), List.reverse_cons, decValue, List.foldl_append]
      have hdiv : n / 10 < 10 ^ m := by
        rw [Nat.div_lt_iff_lt_mul (by omega)]
        calc n < 10 ^ (m + 1) := h
        _ = 10 ^ m * 10 := by ring
      have hrec : List.foldl (fun a c => 10 * a + (c.toNat - 48)) 0
          ((decDigitsAux m (n / 10)).reverse) = n / 10 := ih (n / 10) hdiv
      rw [hrec]
      show 10 * (n / 10) + ((Char.ofNat (48 + n % 10)).toNat - 48) = n
      obtain ⟨d, hd9, hdeq⟩ : ∃ d, d < 10 ∧ n % 10 = d :=
        ⟨n % 10, Nat.mod_lt _ (by omega), rfl⟩
      rw [hdeq]
      have hch : (Char.ofNat (48 + d)).toNat - 48 = d := by
        interval_cases d <;> decide
      rw [hch]
      omega

/-- Reading the patched field back recovers the measured size. -/
lemma decValue_padDec (w n : Nat) (h : n < 10 ^ w) : decValue (padDec w n) = n := by
  rw [padDec, decValue_replicate_zero]
  exact decValue_decDigitsAux w n h

/-- Whether `pat` is a prefix only depends on the first `pat.length`
characters. -/
lemma isPrefixOf_take : ∀ (pat l : List Char),
    pat.isPrefixOf l = pat.isPrefixOf (l.take pat.length) := by
  intro pat
  induction pat with
  | nil => intro l; cases l <;> rfl
  | cons p ps ih =>
    intro l
    match l with
    | [] => rfl
    | x :: xs =>
      show ((p == x) && ps.isPrefixOf xs) = ((p == x) && ps.isPrefixOf (xs.take ps.length))
      rw [ih xs]

/-- `patchAt` rewrites exactly the first occurrence of `pat`. -/
lemma patchAt_append : ∀ (a pat rep b : List Char), pat ≠ [] →
    (∀ i, i < a.length → pat.isPrefixOf ((a ++ pat ++ b).drop i) = false) →
    patchAt (a ++ pat ++ b) pat rep = a ++ rep ++ b := by
  intro a
  induction a with
  | nil =>
    intro pat rep b hne _
    match pat with
    | p :: ps =>
      show patchAt ((p :: ps) ++ b) (p :: ps) rep = rep ++ b
      rw [List.cons_append, patchAt]
      have hpre : (p :: ps).isPrefixOf (p :: (ps ++ b)) = true :=
        List.isPrefixOf_iff_prefix.mpr (List.prefix_append _ _)
      rw [if_pos hpre]
      have hd : (p :: (ps ++ b)).drop (p :: ps).length = b := List.drop_left (p :: ps) b
      rw [hd]
  | cons x a ih =>
    intro pat rep b hne hocc
    have h0 : pat.isPrefixOf (x :: (a ++ pat ++ b)) = false := by
      have := hocc 0 (by simp)
      simpa using this
    have hunfold : patchAt (x :: (a ++ pat ++ b)) pat rep =
        if pat.isPrefixOf (x :: (a ++ pat ++ b)) then
          rep ++ (x :: (a ++ pat ++ b)).drop pat.length
        else x :: patchAt (a ++ pat ++ b) pat rep := rfl
    show patchAt (x :: (a ++ pat ++ b)) pat rep = x :: (a ++ rep ++ b)
    rw [hunfold, if_neg (by simp only [h0]; decide)]
    rw [ih pat rep b hne (fun i hi => by
      have := hocc (i + 1) (by simp only [List.length_cons]; omega)
      simpa using this)]

/-- Concrete scan: `0deadBEEF0` does not occur at any position inside
the fixed header text before the `HeaderSize=` field's value. -/
lemma placeholder_no_early_match :
    ∀ i, i < hdrStart.length →
      placeholderStr.isPrefixOf
        (((hdrStart ++ placeholderStr).drop i).take placeholderStr.length) = false := by
  decide

/-- Independently of the DAQ-generated part of the header, the first
occurrence of the placeholder is the `HeaderSize` field itself. -/
lemma no_early_occurrence (b : List Char) :
    ∀ i, i < hdrStart.length →
      placeholderStr.isPrefixOf ((hdrStart ++ placeholderStr ++ b).drop i) = false := by
  intro i hi
  have hlen : hdrStart.length = 51 := by decide
  have hassoc : hdrStart ++ placeholderStr ++ b = (hdrStart ++ placeholderStr) ++ b := by
    rw [List.append_assoc]
  rw [hassoc, List.drop_append_of_le_length (by simp [List.length_append]; omega)]
  rw [isPrefixOf_take, List.take_append_of_le_length ?hl]
  case hl =>
    have : placeholderStr.length = 10 := by decide
    simp only [List.length_drop, List.length_append, this]
    have h2 : placeholderStr.length = 10 := this
    rw [hlen] at hi ⊢
    have h3 : (placeholderStr : List Char).length = 10 := this
    omega
  exact placeholder_no_early_match i hi

/-- Claim C8: the patch replaces exactly the 10-character placeholder by
the zero-padded decimal of the measured header length, leaving every
other byte and the total length unchanged; the stored field value equals
the header length, which is the byte offset of the first byte following
`Begin=Here\n`. -/
theorem claim_C8 (body : List Char) (hlen : (initialHeader body).length < 10 ^ 10) :
    CreateDataFileHeader body =
        hdrStart ++ padDec 10 (initialHeader body).length ++ hdrAfterSize body ∧
      (CreateDataFileHeader body).length = (initialHeader body).length ∧
      (padDec 10 (initialHeader body).length).length = placeholderStr.length ∧
      decValue (padDec 10 (initialHeader body).length) = (initialHeader body).length ∧
      "Begin=Here\n".toList.isSuffixOf (CreateDataFileHeader body) = true := by
  have hpatch : CreateDataFileHeader body =
      hdrStart ++ padDec 10 (initialHeader body).length ++ hdrAfterSize body := by
    rw [CreateDataFileHeader]
    rw [show initialHeader body = hdrStart ++ placeholderStr ++ hdrAfterSize body from rfl]
    exact patchAt_append hdrStart placeholderStr _ (hdrAfterSize body) (by decide)
      (no_early_occurrence (hdrAfterSize body))
  have hpw : (padDec 10 (initialHeader body).length).length = placeholderStr.length := by
    rw [padDec_length]; rfl
  refine ⟨hpatch, ?_, hpw, decValue_padDec 10 _ hlen, ?_⟩
  · have hinit : (initialHeader body).length =
        hdrStart.length + placeholderStr.length + (hdrAfterSize body).length := by
      rw [show initialHeader body = hdrStart ++ placeholderStr ++ hdrAfterSize body from rfl]
      simp only [List.length_append]
    rw [hpatch]
    simp only [List.length_append, hpw]
    rw [hinit]
  · rw [hpatch]
    refine List.isSuffixOf_iff_suffix.mpr ?_
    refine ⟨hdrStart ++ padDec 10 (initialHeader body).length ++
      "\nNumberOfTasks=1\n".toList ++ body ++ "[BinaryData]\n".toList, ?_⟩
    rw [hdrAfterSize]
    have hsplit : ("[BinaryData]\nBegin=Here\n".toList : List Char) =
        "[BinaryData]\n".toList ++ "Begin=Here\n".toList := by decide
    rw [hsplit]
    simp [List.append_assoc]

theorem claim_C8_witness :
    CreateDataFileHeader "X".toList =
        hdrStart ++ padDec 10 (initialHeader "X".toList).length ++ hdrAfterSize "X".toList ∧
      (CreateDataFileHeader "X".toList).length = (initialHeader "X".toList).length ∧
      (padDec 10 (initialHeader "X".toList).length).length = placeholderStr.length ∧
      decValue (padDec 10 (initialHeader "X".toList).length) = (initialHeader "X".toList).length ∧
      "Begin=Here\n".toList.isSuffixOf (CreateDataFileHeader "X".toList) = true :=
  claim_C8 "X".toList (by decide)

/-! ## Bit-stream lemmas for the packed decode path (claims C1 and C5) -/

lemma natToBits_length : ∀ (w n : Nat), (natToBits w n).length = w := by
  intro w
  induction w with
  | zero => intro n; rfl
  | succ m ih => intro n; simp [natToBits, ih]

lemma natToBits_le_one : ∀ (w n : Nat), ∀ b ∈ natToBits w n, b ≤ 1 := by
  intro w
  induction w with
  | zero => intro n b hb; simp [natToBits] at hb
  | succ m ih =>
    intro n b hb
    rw [natToBits] at hb
    rcases List.mem_cons.mp hb with h | h
    · subst h
      have : (n >>> m) &&& 1 = (n >>> m) % 2 := Nat.and_one_is_mod _
      omega
    · exact ih n b h

lemma bitsToNatAux_append (val : Nat) (l1 l2 : List Nat) :
    bitsToNatAux val (l1 ++ l2) = bitsToNatAux (bitsToNatAux val l1) l2 :=
  List.foldl_append _ _ _ _

lemma bitsToNatAux_eq : ∀ (l : List Nat) (val : Nat),
    bitsToNatAux val l = val * 2 ^ l.length + bitsToNatAux 0 l := by
  intro l
  induction l with
  | nil => intro val; simp [bitsToNatAux]
  | cons b bs ih =>
    intro val
    show bitsToNatAux (2 * val + b) bs = val * 2 ^ (bs.length + 1) + bitsToNatAux (2 * 0 + b) bs
    rw [ih (2 * val + b), ih (2 * 0 + b)]
    ring

lemma bitsToNatAux_lt : ∀ (l : List Nat), (∀ b ∈ l, b ≤ 1) →
    bitsToNatAux 0 l < 2 ^ l.length := by
  intro l
  induction l with
  | nil => intro _; simp [bitsToNatAux]
  | cons b bs ih =>
    intro h
    show bitsToNatAux (2 * 0 + b) bs < 2 ^ (bs.length + 1)
    rw [bitsToNatAux_eq]
    have hb : b ≤ 1 := h b (by simp)
    have hbs : bitsToNatAux 0 bs < 2 ^ bs.length := ih (fun x hx => h x (by simp [hx]))
    have : (2 * 0 + b) * 2 ^ bs.length ≤ 2 ^ bs.length := by
      have := Nat.pos_pow_of_pos bs.length (by omega : 0 < 2)
      nlinarith
    calc (2 * 0 + b) * 2 ^ bs.length + bitsToNatAux 0 bs
        ≤ 2 ^ bs.length + bitsToNatAux 0 bs := by omega
    _ < 2 ^ bs.length + 2 ^ bs.length := by omega
    _ = 2 ^ (bs.length + 1) := by ring

/-- `natToBits w` only reads the low `w` bits. -/
lemma natToBits_congr : ∀ (w n m : Nat), n % 2 ^ w = m % 2 ^ w →
    natToBits w n = natToBits w m := by
  intro w
  induction w with
  | zero => intro n m _; rfl
  | succ k ih =>
    intro n m h
    rw [natToBits, natToBits]
    have hk : n % 2 ^ k = m % 2 ^ k := by
      have hn := Nat.mod_mod_of_dvd n (by
        exact pow_dvd_pow 2 (by omega : k ≤ k + 1))
      have hm := Nat.mod_mod_of_dvd m (by
        exact pow_dvd_pow 2 (by omega : k ≤ k + 1))
      rw [← hn, ← hm, h]
    have hbit : (n >>> k) &&& 1 = (m >>> k) &&& 1 := by
      rw [Nat.and_one_is_mod, Nat.and_one_is_mod, Nat.shiftRight_eq_div_pow,
        Nat.shiftRight_eq_div_pow]
      have h1 : n / 2 ^ k % 2 = n % 2 ^ (k + 1) / 2 ^ k := by
        rw [Nat.pow_succ, ← Nat.mod_mul_right_div_self]
      have h2 : m / 2 ^ k % 2 = m % 2 ^ (k + 1) / 2 ^ k := by
        rw [Nat.pow_succ, ← Nat.mod_mul_right_div_self]
      rw [h1, h2, h]
    rw [hbit, ih n m hk]

/-- Shifting `w` MSB-first bits back in recovers the value modulo `2^w`. -/
lemma bitsToNatAux_natToBits : ∀ (w n : Nat), bitsToNatAux 0 (natToBits w n) = n % 2 ^ w := by
  intro w
  induction w with
  | zero => intro n; simp [natToBits, bitsToNatAux, Nat.mod_one]
  | succ k ih =>
    intro n
    show bitsToNatAux (2 * 0 + ((n >>> k) &&& 1)) (natToBits k n) = n % 2 ^ (k + 1)
    rw [bitsToNatAux_eq, natToBits_length, ih n]
    rw [Nat.and_one_is_mod, Nat.shiftRight_eq_div_pow]
    rw [Nat.mod_pow_succ]
    ring

/-- `natToBits` is a left inverse of MSB-first accumulation on bit
lists. -/
lemma natToBits_bitsToNatAux : ∀ (l : List Nat), (∀ b ∈ l, b ≤ 1) →
    natToBits l.length (bitsToNatAux 0 l) = l := by
  intro l
  induction l with
  | nil => intro _; rfl
  | cons b bs ih =>
    intro h
    have hb : b ≤ 1 := h b (by simp)
    have hbs : ∀ x ∈ bs, x ≤ 1 := fun x hx => h x (by simp [hx])
    have hvbs : bitsToNatAux 0 bs < 2 ^ bs.length := bitsToNatAux_lt bs hbs
    have hval : bitsToNatAux 0 (b :: bs) = b * 2 ^ bs.length + bitsToNatAux 0 bs := by
      show bitsToNatAux (2 * 0 + b) bs = _
      rw [bitsToNatAux_eq]
      ring_nf
    show natToBits (bs.length + 1) (bitsToNatAux 0 (b :: bs)) = b :: bs
    rw [natToBits, hval]
    have hhead : ((b * 2 ^ bs.length + bitsToNatAux 0 bs) >>> bs.length) &&& 1 = b := by
      rw [Nat.shiftRight_eq_div_pow]
      have hdiv : (b * 2 ^ bs.length + bitsToNatAux 0 bs) / 2 ^ bs.length = b := by
        rw [Nat.add_comm, Nat.add_mul_div_right _ _ (Nat.pos_pow_of_pos _ (by omega))]
        rw [Nat.div_eq_of_lt hvbs]
        omega
      rw [hdiv, Nat.and_one_is_mod]
      omega
    have htail : natToBits bs.length (b * 2 ^ bs.length + bitsToNatAux 0 bs) = bs := by
      have hcong : (b * 2 ^ bs.length + bitsToNatAux 0 bs) % 2 ^ bs.length =
          bitsToNatAux 0 bs % 2 ^ bs.length := by
        rw [Nat.add_comm, Nat.add_mul_mod_self_right]
      rw [natToBits_congr bs.length _ (bitsToNatAux 0 bs) hcong, ih hbs]
    rw [hhead, htail]

/-- For `v < 2^(k+1)`, the top bit is set iff `2^k ≤ v`. -/
lemma testBit_top (k v : Nat) (h : v < 2 ^ (k + 1)) : v.testBit k = true ↔ 2 ^ k ≤ v := by
  rw [Nat.testBit_to_div_mod]
  have hlt : v / 2 ^ k < 2 := by
    rw [Nat.div_lt_iff_lt_mul (Nat.pos_pow_of_pos _ (by omega))]
    rw [Nat.pow_succ] at h
    omega
  constructor
  · intro hd
    simp only [decide_eq_true_eq] at hd
    have h1 : 1 ≤ v / 2 ^ k := by
      rcases Nat.eq_zero_or_pos (v / 2 ^ k) with h0 | h0
      · rw [h0] at hd; simp at hd
      · exact h0
    exact (Nat.one_le_div_iff (Nat.pos_pow_of_pos _ (by omega))).mp h1
  · intro hle
    have h1 : 1 ≤ v / 2 ^ k := (Nat.one_le_div_iff (Nat.pos_pow_of_pos _ (by omega))).mpr hle
    simp only [decide_eq_true_eq]
    omega

/-- Setting disjoint high bits is addition: for `v < 2^k`,
`v ||| (2^k * m) = v + 2^k * m`. -/
lemma lor_two_pow_mul (v k m : Nat) (hv : v < 2 ^ k) :
    v ||| 2 ^ k * m = v + 2 ^ k * m := by
  refine Nat.eq_of_testBit_eq (fun i => ?_)
  rw [Nat.testBit_lor]
  rcases Nat.lt_or_ge i k with hik | hik
  · have hsplit : 2 ^ k = 2 ^ i * 2 ^ (k - i) := by
      rw [← Nat.pow_add]
      congr 1
      omega
    have heven : ∃ y, 2 ^ (k - i) * m = 2 * y := by
      refine ⟨2 ^ (k - i - 1) * m, ?_⟩
      rw [← Nat.mul_assoc, ← Nat.pow_succ']
      congr 2
      omega
    obtain ⟨y, hy⟩ := heven
    have hadd : (v + 2 ^ k * m).testBit i = v.testBit i := by
      rw [Nat.testBit_to_div_mod, Nat.testBit_to_div_mod]
      rw [hsplit, Nat.mul_assoc, Nat.add_mul_div_left _ _ (Nat.pos_pow_of_pos _ (by omega))]
      rw [hy, Nat.add_mul_mod_self_left]
    have hright : (2 ^ k * m).testBit i = false := by
      rw [Nat.testBit_to_div_mod]
      rw [hsplit, Nat.mul_assoc, Nat.mul_div_cancel_left _ (Nat.pos_pow_of_pos _ (by omega))]
      rw [hy, Nat.mul_mod_right]
      decide
    rw [hadd, hright, Bool.or_false]
  · have hvi : v.testBit i = false :=
      Nat.testBit_lt_two_pow (Nat.lt_of_lt_of_le hv (Nat.pow_le_pow_right (by omega) hik))
    have hdiv : (v + 2 ^ k * m) / 2 ^ i = (2 ^ k * m) / 2 ^ i := by
      have hsplit : 2 ^ i = 2 ^ k * 2 ^ (i - k) := by
        rw [← Nat.pow_add]
        congr 1
        omega
      rw [hsplit, ← Nat.div_div_eq_div_mul, ← Nat.div_div_eq_div_mul]
      congr 1
      rw [Nat.add_mul_div_left _ _ (Nat.pos_pow_of_pos _ (by omega)),
        Nat.div_eq_of_lt hv, Nat.mul_div_cancel_left _ (Nat.pos_pow_of_pos _ (by omega))]
      omega
    have hadd : (v + 2 ^ k * m).testBit i = (2 ^ k * m).testBit i := by
      rw [Nat.testBit_to_div_mod, Nat.testBit_to_div_mod, hdiv]
    rw [hadd, hvi, Bool.false_or]

/-- The extension mask `0xFFFFFFFF - (1 << r) + 1 = 2^32 - 2^r` as a
sum of the high bits. -/
lemma extendmask_eq (r : Nat) (hr : r ≤ 32) : 2 ^ 32 - 2 ^ r = 2 ^ r * (2 ^ (32 - r) - 1) := by
  have h : 2 ^ r * 2 ^ (32 - r) = 2 ^ 32 := by
    rw [← Nat.pow_add]
    congr 1
    omega
  rw [Nat.mul_sub_one]
  omega

/-- The extension mask has exactly the bits `r ≤ i < 32` set. -/
lemma extendmask_testBit (r i : Nat) (hr : r ≤ 32) :
    (2 ^ 32 - 2 ^ r).testBit i = true ↔ (r ≤ i ∧ i < 32) := by
  rw [extendmask_eq r hr]
  have h0 : (0 : Nat) ||| 2 ^ r * (2 ^ (32 - r) - 1) = 2 ^ r * (2 ^ (32 - r) - 1) := by
    simp
  rcases Nat.lt_or_ge i r with hik | hik
  · constructor
    · intro htb
      exfalso
      have : (2 ^ r * (2 ^ (32 - r) - 1)).testBit i = false := by
        have := lor_two_pow_mul 0 r (2 ^ (32 - r) - 1) (Nat.pos_pow_of_pos _ (by omega))
        rw [Nat.testBit_to_div_mod]
        have hsplit : 2 ^ r = 2 ^ i * 2 ^ (r - i) := by
          rw [← Nat.pow_add]; congr 1; omega
        rw [hsplit, Nat.mul_assoc, Nat.mul_div_cancel_left _ (Nat.pos_pow_of_pos _ (by omega))]
        have heven : ∃ y, 2 ^ (r - i) * (2 ^ (32 - r) - 1) = 2 * y :=
          ⟨2 ^ (r - i - 1) * (2 ^ (32 - r) - 1), by
            rw [← Nat.mul_assoc, ← Nat.pow_succ']
            congr 2
            omega⟩
        obtain ⟨y, hy⟩ := heven
        rw [hy, Nat.mul_mod_right]
        decide
      rw [this] at htb
      exact Bool.noConfusion htb
    · intro ⟨h1, _⟩; omega
  · have hshift : (2 ^ r * (2 ^ (32 - r) - 1)).testBit i = (2 ^ (32 - r) - 1).testBit (i - r) := by
      rw [Nat.testBit_to_div_mod, Nat.testBit_to_div_mod]
      have hsplit : 2 ^ i = 2 ^ r * 2 ^ (i - r) := by
        rw [← Nat.pow_add]; congr 1; omega
      rw [hsplit, ← Nat.div_div_eq_div_mul,
        Nat.mul_div_cancel_left _ (Nat.pos_pow_of_pos _ (by omega))]
    rw [hshift, Nat.testBit_two_pow_sub_one]
    simp only [decide_eq_true_eq]
    omega

/-- Bit `n+k` of `a * 2^k` is bit `n` of `a`. -/
lemma testBit_mul_two_pow (a k n : Nat) : (a * 2 ^ k).testBit (n + k) = a.testBit n := by
  rw [Nat.testBit_to_div_mod, Nat.testBit_to_div_mod]
  have hsplit : 2 ^ (n + k) = 2 ^ k * 2 ^ n := by
    rw [← Nat.pow_add]; congr 1; omega
  rw [hsplit, ← Nat.div_div_eq_div_mul]
  rw [show a * 2 ^ k = 2 ^ k * a from Nat.mul_comm _ _,
    Nat.mul_div_cancel_left _ (Nat.pos_pow_of_pos _ (by omega))]

/-- The bit stream of a block's bytes, MSB first. -/
def blockBits (L : List Nat) : List Nat :=
  L.flatMap byteBits

lemma blockBits_length (L : List Nat) : (blockBits L).length = 8 * L.length := by
  induction L with
  | nil => rfl
  | cons a l ih =>
    simp only [blockBits, List.flatMap_cons, List.length_append, List.length_cons] at ih ⊢
    rw [show (byteBits a).length = 8 from natToBits_length 8 a, ih]
    ring

lemma natToBits_getD : ∀ (w n i : Nat), i < w →
    (natToBits w n).getD i 0 = (n >>> (w - 1 - i)) &&& 1 := by
  intro w
  induction w with
  | zero => intro n i h; omega
  | succ m ih =>
    intro n i h
    match i with
    | 0 =>
      show (n >>> m) &&& 1 = (n >>> (m + 1 - 1 - 0)) &&& 1
      congr 2 <;> omega
    | j+1 =>
      show (natToBits m n).getD j 0 = (n >>> (m + 1 - 1 - (j + 1))) &&& 1
      rw [ih n j (by omega)]
      congr 2 <;> omega

lemma blockBits_getD : ∀ (L : List Nat) (p : Nat), p < 8 * L.length →
    (blockBits L).getD p 0 = (L.getD (p / 8) 0 >>> (7 - p % 8)) &&& 1 := by
  intro L
  induction L with
  | nil => intro p h; simp at h
  | cons a l ih =>
    intro p h
    simp only [blockBits, List.flatMap_cons]
    rcases Nat.lt_or_ge p 8 with hp | hp
    · rw [List.getD_append _ _ _ _ (by
        rw [show (byteBits a).length = 8 from natToBits_length 8 a]; omega)]
      rw [show byteBits a = natToBits 8 a from rfl, natToBits_getD 8 a p hp]
      have h1 : p / 8 = 0 := Nat.div_eq_of_lt hp
      have h2 : p % 8 = p := Nat.mod_eq_of_lt hp
      rw [h1, h2]
      show (a >>> (8 - 1 - p)) &&& 1 = ((a :: l).getD 0 0 >>> (7 - p)) &&& 1
      congr 2 <;> omega
    · rw [List.getD_append_right _ _ _ _ (by
        rw [show (byteBits a).length = 8 from natToBits_length 8 a]; omega)]
      rw [show (byteBits a).length = 8 from natToBits_length 8 a]
      have hrec := ih (p - 8) (by simp only [List.length_cons] at h; omega)
      rw [show blockBits l = l.flatMap byteBits from rfl] at hrec
      rw [hrec]
      have h1 : (p - 8) / 8 + 1 = p / 8 := by omega
      have h2 : (p - 8) % 8 = p % 8 := by omega
      rw [← h1, h2]
      rfl

/-- The packed decoder's cursor after consuming `p` bits of a block
whose `rbsb` bytes are `L` followed by the rest of the stream `tail`:
while `p < 8*rbsb` the byte `p/8` has been pulled and `p % 8` of its
bits consumed (the decoder pulls the next byte eagerly at each byte
boundary); at `p = 8*rbsb` the block is exhausted with `bitPos = 8`. -/
def stateAt (rbsb : Nat) (L tail : List Nat) (p : Nat) : PackState :=
  if p < 8 * rbsb then
    { ch := L.getD (p / 8) 0, bitPos := p % 8, byteCount := p / 8 + 1,
      rest := L.drop (p / 8 + 1) ++ tail }
  else
    { ch := L.getD (rbsb - 1) 0, bitPos := 8, byteCount := rbsb, rest := tail }

lemma extractBits_succ (rbsb n val C B K : Nat) (R : List Nat) :
    extractBits rbsb (n + 1) val ⟨C, B, K, R⟩ =
      if B + 1 = 8 ∧ K < rbsb then
        match R with
        | [] => none
        | b :: r => extractBits rbsb n (2 * val + ((C >>> (8 - B - 1)) &&& 1)) ⟨b, 0, K + 1, r⟩
      else extractBits rbsb n (2 * val + ((C >>> (8 - B - 1)) &&& 1)) ⟨C, B + 1, K, R⟩ := rfl

/-- The bit-extraction loop, started at bit position `p` of a block,
reads exactly the next `size` bits of the block's bit stream and leaves
the cursor at position `p + size`. -/
lemma extractBits_stateAt (rbsb : Nat) (L tail : List Nat) (hL : L.length = rbsb)
    (hpos : 0 < rbsb) :
    ∀ (size p val : Nat), p + size ≤ 8 * rbsb →
    extractBits rbsb size val (stateAt rbsb L tail p) =
      some (bitsToNatAux val (((blockBits L).drop p).take size),
        stateAt rbsb L tail (p + size)) := by
  intro size
  induction size with
  | zero =>
    intro p val _
    simp [extractBits, bitsToNatAux]
  | succ n ih =>
    intro p val hb
    have hp : p < 8 * rbsb := by omega
    have hstate : stateAt rbsb L tail p =
        { ch := L.getD (p / 8) 0, bitPos := p % 8, byteCount := p / 8 + 1,
          rest := L.drop (p / 8 + 1) ++ tail } := by
      rw [stateAt, if_pos hp]
    have hbit : (L.getD (p / 8) 0 >>> (8 - p % 8 - 1)) &&& 1 = (blockBits L).getD p 0 := by
      rw [blockBits_getD L p (by omega)]
      congr 2 <;> omega
    have hplen : p < (blockBits L).length := by
      rw [blockBits_length, hL]; omega
    have hdropP : (blockBits L).drop p =
        (blockBits L).getD p 0 :: (blockBits L).drop (p + 1) := by
      rw [List.drop_eq_getElem_cons hplen]
      rw [List.getD_eq_getElem _ _ hplen]
    have hval : bitsToNatAux val (((blockBits L).drop p).take (n + 1)) =
        bitsToNatAux (2 * val + (blockBits L).getD p 0) (((blockBits L).drop (p + 1)).take n) := by
      rw [hdropP]
      rfl
    rw [hstate, extractBits_succ, hval, show p + (n + 1) = p + 1 + n by omega, ← hbit]
    by_cases hcase : p % 8 + 1 = 8 ∧ p / 8 + 1 < rbsb
    · rw [if_pos hcase]
      have hlt : p / 8 + 1 < L.length := by rw [hL]; exact hcase.2
      have hrest : L.drop (p / 8 + 1) ++ tail =
          L.getD (p / 8 + 1) 0 :: (L.drop (p / 8 + 2) ++ tail) := by
        rw [List.drop_eq_getElem_cons hlt, List.getD_eq_getElem _ _ hlt, List.cons_append]
      rw [hrest]
      have hnext : stateAt rbsb L tail (p + 1) =
          { ch := L.getD (p / 8 + 1) 0, bitPos := 0, byteCount := p / 8 + 1 + 1,
            rest := L.drop (p / 8 + 2) ++ tail } := by
        rw [stateAt, if_pos (show p + 1 < 8 * rbsb by omega)]
        have h1 : (p + 1) / 8 = p / 8 + 1 := by omega
        have h2 : (p + 1) % 8 = 0 := by omega
        rw [h1, h2]
      rw [← ih (p + 1) (2 * val + ((L.getD (p / 8) 0 >>> (8 - p % 8 - 1)) &&& 1)) (by omega)]
      rw [hnext]
    · rw [if_neg hcase]
      have hnext : stateAt rbsb L tail (p + 1) =
          { ch := L.getD (p / 8) 0, bitPos := p % 8 + 1, byteCount := p / 8 + 1,
            rest := L.drop (p / 8 + 1) ++ tail } := by
        rcases Nat.lt_or_ge (p + 1) (8 * rbsb) with hlt | hge
        · rw [stateAt, if_pos hlt]
          have hm : p % 8 < 7 := by
            rcases Nat.lt_or_ge (p % 8) 7 with h7 | h7
            · exact h7
            · exfalso
              have h8 : p % 8 = 7 := by omega
              have hdiv : p / 8 + 1 < rbsb := by omega
              exact hcase ⟨by omega, hdiv⟩
          have h1 : (p + 1) / 8 = p / 8 := by omega
          have h2 : (p + 1) % 8 = p % 8 + 1 := by omega
          rw [h1, h2]
        · rw [stateAt, if_neg (by omega)]
          have h8 : p % 8 = 7 := by omega
          have hdiv : p / 8 + 1 = rbsb := by omega
          have hdropnil : L.drop (p / 8 + 1) = [] := by
            rw [hdiv, ← hL, List.drop_length]
          rw [hdropnil, List.nil_append, show p % 8 + 1 = 8 from by omega,
            show rbsb - 1 = p / 8 from by omega, show rbsb = p / 8 + 1 from by omega]
      rw [← ih (p + 1) (2 * val + ((L.getD (p / 8) 0 >>> (8 - p % 8 - 1)) &&& 1)) (by omega)]
      rw [hnext]

lemma toInt32_small (v : Nat) (h : v < 2 ^ 31) : toInt32 v = (v : Int) := by
  have h32 : v % 2 ^ 32 = v := Nat.mod_eq_of_lt (by omega)
  rw [toInt32, h32, if_pos h]

lemma toInt32_high (v : Nat) (h1 : 2 ^ 31 ≤ v) (h2 : v < 2 ^ 32) :
    toInt32 v = (v : Int) - 2 ^ 32 := by
  have h32 : v % 2 ^ 32 = v := Nat.mod_eq_of_lt h2
  rw [toInt32, h32, if_neg (by omega)]

/-- The raw integer the packed path hands to scaling for an extracted
compressed value `v`: left-shift by the `lsb` lost bits, then (for signed
channels with the reconstructed top bit set) two's-complement at the
reconstructed width `rawWidth`. -/
def packedOut (chan : ChannelInfo) (v : Nat) : Int :=
  if chan.signedNumber ∧ 2 ^ (chan.compressedSampleSizeInBits - 1) ≤ v then
    (v : Int) * 2 ^ (rawWidth chan - chan.compressedSampleSizeInBits) - 2 ^ rawWidth chan
  else (v : Int) * 2 ^ (rawWidth chan - chan.compressedSampleSizeInBits)

/-- One packed channel step, characterized: when extraction yields `v`,
the emitted raw integer is `packedOut chan v`. -/
lemma chanStepP_eq (rbsb : Nat) (chan : ChannelInfo) (st st' : PackState) (v : Nat)
    (hsz : 1 ≤ chan.compressedSampleSizeInBits)
    (hjust : chan.compressedSampleSizeInBits ≤ rawWidth chan)
    (hreal : rawWidth chan < 32)
    (hv : v < 2 ^ chan.compressedSampleSizeInBits)
    (hex : extractBits rbsb chan.compressedSampleSizeInBits 0 st = some (v, st')) :
    chanStepP rbsb chan st =
      some ((packedOut chan v,
        polyEval chan.polynomialScalingCoeffChain (packedOut chan v)), st') := by
  have hrs : chan.compressedSampleSizeInBits + (rawWidth chan - chan.compressedSampleSizeInBits)
      = rawWidth chan := by omega
  rw [chanStepP]
  simp only [hrs, hex]
  set size := chan.compressedSampleSizeInBits with hsizedef
  set lsb := rawWidth chan - size with hlsbdef
  have hshift : v <<< lsb = v * 2 ^ lsb := Nat.shiftLeft_eq v lsb
  have hv1 : v * 2 ^ lsb < 2 ^ rawWidth chan := by
    calc v * 2 ^ lsb < 2 ^ size * 2 ^ lsb :=
      (Nat.mul_lt_mul_right (Nat.pos_pow_of_pos _ (by omega))).mpr hv
    _ = 2 ^ (size + lsb) := by rw [← Nat.pow_add]
    _ = 2 ^ rawWidth chan := by rw [hrs]
  have hv31 : v * 2 ^ lsb < 2 ^ 31 := by
    calc v * 2 ^ lsb < 2 ^ rawWidth chan := hv1
    _ ≤ 2 ^ 31 := Nat.pow_le_pow_right (by omega) (by omega)
  have htest : ((v <<< lsb) &&& 2 ^ (rawWidth chan - 1) ≠ 0) ↔ 2 ^ (size - 1) ≤ v := by
    rw [hshift, Nat.and_two_pow]
    have hpos' : (v * 2 ^ lsb).testBit (rawWidth chan - 1) = v.testBit (size - 1) := by
      rw [show rawWidth chan - 1 = (size - 1) + lsb by omega]
      exact testBit_mul_two_pow v lsb (size - 1)
    rw [hpos']
    have htop := testBit_top (size - 1) v (by
      rw [show size - 1 + 1 = size by omega]
      exact hv)
    rcases hbit : v.testBit (size - 1) with _ | _
    · simp only [hbit, Bool.toNat_false, Nat.zero_mul]
      rw [hbit] at htop
      constructor
      · intro hcontra; omega
      · intro hle
        exfalso
        have := htop.mpr hle
        exact Bool.noConfusion this
    · simp only [hbit, Bool.toNat_true, Nat.one_mul]
      rw [hbit] at htop
      constructor
      · intro _; exact htop.mp rfl
      · intro _
        have := Nat.pos_pow_of_pos (rawWidth chan - 1) (by omega : 0 < 2)
        omega
  by_cases hcond : chan.signedNumber = true ∧ 2 ^ (size - 1) ≤ v
  · have hmask : v <<< lsb ||| (2 ^ 32 - 2 ^ rawWidth chan) =
        v * 2 ^ lsb + (2 ^ 32 - 2 ^ rawWidth chan) := by
      rw [hshift, extendmask_eq (rawWidth chan) (by omega)]
      exact lor_two_pow_mul _ _ _ hv1
    rw [if_pos ⟨hcond.1, hreal, htest.mpr hcond.2⟩, hmask]
    have hlow : 2 ^ 31 ≤ v * 2 ^ lsb + (2 ^ 32 - 2 ^ rawWidth chan) := by
      have h1 : 2 ^ rawWidth chan ≤ 2 ^ 31 := Nat.pow_le_pow_right (by omega) (by omega)
      have h2 : (2 : Nat) ^ 32 = 2 ^ 31 + 2 ^ 31 := by norm_num
      omega
    have hhigh : v * 2 ^ lsb + (2 ^ 32 - 2 ^ rawWidth chan) < 2 ^ 32 := by
      have h1 : (2 : Nat) ^ rawWidth chan ≤ 2 ^ 32 := Nat.pow_le_pow_right (by omega) (by omega)
      omega
    rw [toInt32_high _ hlow hhigh]
    have hcast : ((v * 2 ^ lsb + (2 ^ 32 - 2 ^ rawWidth chan) : Nat) : Int) =
        (v : Int) * 2 ^ lsb + (2 ^ 32 - 2 ^ rawWidth chan) := by
      have h1 : (2 : Nat) ^ rawWidth chan ≤ 2 ^ 32 := Nat.pow_le_pow_right (by omega) (by omega)
      rw [Nat.cast_add, Nat.cast_sub h1]
      push_cast
      ring
    rw [hcast]
    have hout : packedOut chan v = (v : Int) * 2 ^ lsb - 2 ^ rawWidth chan := by
      rw [packedOut, if_pos ⟨hcond.1, hcond.2⟩]
    rw [hout]
    have hfin : (v : Int) * 2 ^ lsb + (2 ^ 32 - 2 ^ rawWidth chan) - 2 ^ 32 =
        (v : Int) * 2 ^ lsb - 2 ^ rawWidth chan := by ring
    rw [hfin]
  · have hnot : ¬(chan.signedNumber = true ∧ rawWidth chan < 32 ∧
        (v <<< lsb) &&& 2 ^ (rawWidth chan - 1) ≠ 0) := by
      intro ⟨hs, _, ht⟩
      exact hcond ⟨hs, htest.mp ht⟩
    rw [if_neg hnot, hshift, toInt32_small _ hv31]
    have hout : packedOut chan v = (v : Int) * 2 ^ lsb := by
      rw [packedOut, if_neg (by
        intro ⟨hs, hle⟩
        exact hcond ⟨hs, hle⟩)]
    rw [hout]
    push_cast
    rfl

/-! ## Claim C5: lsb reconstruction and sign extension in the packed path -/

/-- Claim C5: after extracting the compressed-width value `v`, the packed
path left-shifts by `lsb = rawWidth - compressedWidth` (zero-filling the
dropped low bits), and sign-extends at the reconstructed width
`compressedWidth + lsb = rawWidth`: the sign bit tested is the shifted
value's bit `rawWidth - 1` (the extracted value's top bit), the extension
mask covers exactly the bits from `rawWidth` to 31, and the resulting raw
integer is the two's-complement value `packedOut`. -/
theorem claim_C5 (rbsb : Nat) (chan : ChannelInfo) (st st' : PackState) (v : Nat)
    (hsz : 1 ≤ chan.compressedSampleSizeInBits)
    (hjust : chan.compressedSampleSizeInBits ≤ rawWidth chan)
    (hreal : rawWidth chan < 32)
    (hv : v < 2 ^ chan.compressedSampleSizeInBits)
    (hex : extractBits rbsb chan.compressedSampleSizeInBits 0 st = some (v, st')) :
    chanStepP rbsb chan st =
      some ((packedOut chan v,
        polyEval chan.polynomialScalingCoeffChain (packedOut chan v)), st') ∧
    (v * 2 ^ (rawWidth chan - chan.compressedSampleSizeInBits)) %
      2 ^ (rawWidth chan - chan.compressedSampleSizeInBits) = 0 ∧
    (∀ i, (2 ^ 32 - 2 ^ rawWidth chan).testBit i = true ↔ (rawWidth chan ≤ i ∧ i < 32)) ∧
    ((v <<< (rawWidth chan - chan.compressedSampleSizeInBits)) &&& 2 ^ (rawWidth chan - 1) ≠ 0
      ↔ 2 ^ (chan.compressedSampleSizeInBits - 1) ≤ v) := by
  refine ⟨chanStepP_eq rbsb chan st st' v hsz hjust hreal hv hex,
    Nat.mul_mod_left _ _,
    fun i => extendmask_testBit (rawWidth chan) i (by omega), ?_⟩
  set size := chan.compressedSampleSizeInBits with hsizedef
  set lsb := rawWidth chan - size with hlsbdef
  rw [Nat.shiftLeft_eq v lsb, Nat.and_two_pow]
  have hpos' : (v * 2 ^ lsb).testBit (rawWidth chan - 1) = v.testBit (size - 1) := by
    rw [show rawWidth chan - 1 = (size - 1) + lsb by omega]
    exact testBit_mul_two_pow v lsb (size - 1)
  rw [hpos']
  have htop := testBit_top (size - 1) v (by
    rw [show size - 1 + 1 = size by omega]
    exact hv)
  rcases hbit : v.testBit (size - 1) with _ | _
  · simp only [hbit, Bool.toNat_false, Nat.zero_mul]
    rw [hbit] at htop
    constructor
    · intro hcontra; omega
    · intro hle
      exfalso
      exact Bool.noConfusion (htop.mpr hle)
  · simp only [hbit, Bool.toNat_true, Nat.one_mul]
    rw [hbit] at htop
    constructor
    · intro _; exact htop.mp rfl
    · intro _
      have := Nat.pos_pow_of_pos (rawWidth chan - 1) (by omega : 0 < 2)
      omega

/-- The claim-C1/C5 channel: `compressedSampleSizeInBits = 12`, right
justified with 12-bit resolution (so `lsb = 0`), identity scaling. -/
def chan12 (signed : Bool) : ChannelInfo :=
  { rawSampleResolution := 12
    rawSampleSizeInBits := 12
    rawSampleJustification := Justification.Right
    signedNumber := signed
    compressionType := CompressionType.LossyLSBRemoval
    compressedSampleSizeInBits := 12
    compressionByteOrder := ByteOrder.BigEndian
    polynomialScalingCoeffChain := [0, 1] }

theorem claim_C5_witness :
    chanStepP 2 (chan12 true) ⟨171, 0, 1, [192]⟩ =
      some ((packedOut (chan12 true) 2748,
        polyEval (chan12 true).polynomialScalingCoeffChain (packedOut (chan12 true) 2748)),
        ⟨192, 4, 2, []⟩) ∧
    (2748 * 2 ^ (rawWidth (chan12 true) - (chan12 true).compressedSampleSizeInBits)) %
      2 ^ (rawWidth (chan12 true) - (chan12 true).compressedSampleSizeInBits) = 0 ∧
    (∀ i, (2 ^ 32 - 2 ^ rawWidth (chan12 true)).testBit i = true ↔
      (rawWidth (chan12 true) ≤ i ∧ i < 32)) ∧
    ((2748 <<< (rawWidth (chan12 true) - (chan12 true).compressedSampleSizeInBits)) &&&
        2 ^ (rawWidth (chan12 true) - 1) ≠ 0
      ↔ 2 ^ ((chan12 true).compressedSampleSizeInBits - 1) ≤ 2748) :=
  claim_C5 2 (chan12 true) ⟨171, 0, 1, [192]⟩ ⟨192, 4, 2, []⟩ 2748
    (by decide) (by decide) (by decide) (by decide) (by decide)

/-! ## The packed bit stream of `packBytes` (claim C1) -/

lemma byteBits_bitsToByte (c : List Nat) (hlen : c.length ≤ 8) (hc : ∀ b ∈ c, b ≤ 1) :
    byteBits (bitsToByte c) = c ++ List.replicate (8 - c.length) 0 := by
  rw [byteBits, bitsToByte, padTo8]
  have hl : (c ++ List.replicate (8 - c.length) 0).length = 8 := by
    simp only [List.length_append, List.length_replicate]
    omega
  have hb : ∀ b ∈ c ++ List.replicate (8 - c.length) 0, b ≤ 1 := by
    intro b hb
    rcases List.mem_append.mp hb with h | h
    · exact hc b h
    · have := List.eq_of_mem_replicate h
      omega
  have hrt := natToBits_bitsToNatAux (c ++ List.replicate (8 - c.length) 0) hb
  rw [hl] at hrt
  exact hrt

/-- Flattening the chunked bytes recovers the bit stream, zero-padded to
`8*k` bits. -/
lemma packBytes_flatten : ∀ (k : Nat) (bits : List Nat), (∀ b ∈ bits, b ≤ 1) →
    bits.length ≤ 8 * k →
    ((List.range k).map (fun i => bitsToByte ((bits.drop (8 * i)).take 8))).flatMap byteBits =
      bits ++ List.replicate (8 * k - bits.length) 0 := by
  intro k
  induction k with
  | zero =>
    intro bits _ hlen
    have : bits = [] := List.length_eq_zero.mp (by omega)
    subst this
    rfl
  | succ m ih =>
    intro bits hb hlen
    rw [List.range_succ_eq_map, List.map_cons, List.flatMap_cons, List.map_map]
    have hchunk0 : bitsToByte ((bits.drop (8 * 0)).take 8) = bitsToByte (bits.take 8) := by
      rw [Nat.mul_zero, List.drop_zero]
    have htails : (List.range m).map ((fun i => bitsToByte ((bits.drop (8 * i)).take 8)) ∘ Nat.succ)
        = (List.range m).map (fun i => bitsToByte (((bits.drop 8).drop (8 * i)).take 8)) := by
      refine List.map_congr_left (fun i _ => ?_)
      simp only [Function.comp_apply]
      rw [List.drop_drop]
      congr 3
      omega
    rw [hchunk0, htails]
    have hrec := ih (bits.drop 8) (fun b hb' => hb b (List.mem_of_mem_drop hb'))
      (by simp only [List.length_drop]; omega)
    rw [hrec]
    have h0 : byteBits (bitsToByte (bits.take 8)) =
        bits.take 8 ++ List.replicate (8 - (bits.take 8).length) 0 :=
      byteBits_bitsToByte _ (by simp only [List.length_take]; omega)
        (fun b hb' => hb b (List.mem_of_mem_take hb'))
    rw [h0]
    rcases Nat.le_total bits.length 8 with hle | hge
    · have ht : bits.take 8 = bits := List.take_of_length_le hle
      have hd : bits.drop 8 = [] := List.drop_eq_nil_of_le hle
      rw [ht, hd]
      simp only [List.nil_append, List.length_nil, Nat.sub_zero]
      rw [List.append_assoc, ← List.replicate_add]
      congr 2
      omega
    · have hlt : (bits.take 8).length = 8 := by simp only [List.length_take]; omega
      rw [hlt]
      simp only [Nat.sub_self, List.replicate_zero, List.append_nil]
      rw [← List.append_assoc, List.take_append_drop]
      congr 2
      simp only [List.length_drop]
      omega

lemma flatMap_natToBits_length (w : Nat) : ∀ (vals : List Nat),
    (vals.flatMap (natToBits w)).length = w * vals.length := by
  intro vals
  induction vals with
  | nil => simp
  | cons v vs ih =>
    simp only [List.flatMap_cons, List.length_append, natToBits_length, ih, List.length_cons]
    ring

lemma flatMap_natToBits_le_one (w : Nat) (vals : List Nat) :
    ∀ b ∈ vals.flatMap (natToBits w), b ≤ 1 := by
  intro b hb
  obtain ⟨v, _, hbv⟩ := List.mem_flatMap.mp hb
  exact natToBits_le_one w v b hbv

lemma packBytes_length (w : Nat) (vals : List Nat) :
    (packBytes w vals).length = ((vals.flatMap (natToBits w)).length + 7) / 8 := by
  simp [packBytes]

/-- The bit stream of the packed bytes is the values' bits followed by
the final byte's zero padding. -/
lemma blockBits_packBytes (w : Nat) (vals : List Nat) :
    blockBits (packBytes w vals) =
      vals.flatMap (natToBits w) ++
        List.replicate (8 * (((vals.flatMap (natToBits w)).length + 7) / 8) -
          (vals.flatMap (natToBits w)).length) 0 := by
  rw [blockBits, packBytes]
  exact packBytes_flatten _ _ (flatMap_natToBits_le_one w vals) (by omega)

lemma sampleStepP_one (rbsb : Nat) (c : ChannelInfo) (st : PackState) :
    sampleStepP rbsb 1 [c] st =
      match chanStepP rbsb c st with
      | none => none
      | some (v, st') => some ([v], st') := by
  show (match chanStepP rbsb c st with
    | none => none
    | some (v, st') =>
      match sampleStepP rbsb 0 [] st' with
      | none => none
      | some (vs, st'') => some (v :: vs, st'')) = _
  rcases chanStepP rbsb c st with _ | ⟨v, st'⟩ <;> rfl

lemma blockLoopP_succ (info : DataFileInfo) (s : Nat) (st : PackState) :
    blockLoopP info (s + 1) st =
      match sampleStepP info.readBlockSizeInBytes info.numberOfChannels
          info.channelInfoChain st with
      | none => ([], none)
      | some (vs, st') => (vs :: (blockLoopP info s st').1, (blockLoopP info s st').2) := by
  show (match sampleStepP info.readBlockSizeInBytes info.numberOfChannels
      info.channelInfoChain st with
    | none => ([], none)
    | some (vs, st') =>
      let b := blockLoopP info s st'
      (vs :: b.1, b.2)) = _
  rcases sampleStepP info.readBlockSizeInBytes info.numberOfChannels
    info.channelInfoChain st with _ | ⟨vs, st'⟩ <;> rfl

lemma decodePAux_nil (info : DataFileInfo) (fuel : Nat) : decodePAux info fuel [] = some [] := by
  cases fuel <;> rfl

/-- A single block decodes the whole packed value list when the block's
bytes carry exactly those values' bits. -/
lemma c1_loop (info : DataFileInfo) (signed : Bool) (L tail : List Nat)
    (hnc : info.numberOfChannels = 1)
    (hchain : info.channelInfoChain = [chan12 signed])
    (hrbsb : info.readBlockSizeInBytes = L.length)
    (hpos : 0 < L.length) :
    ∀ (vs : List Nat) (p : Nat) (Z : List Nat),
      (∀ v ∈ vs, v < 2 ^ 12) →
      (blockBits L).drop p = vs.flatMap (natToBits 12) ++ Z →
      p + 12 * vs.length ≤ 8 * L.length →
      blockLoopP info vs.length (stateAt L.length L tail p) =
        (vs.map (fun v => [(tc12 signed v, polyEval [0, 1] (tc12 signed v))]),
          some (stateAt L.length L tail (p + 12 * vs.length))) := by
  intro vs
  induction vs with
  | nil =>
    intro p Z _ _ _
    simp [blockLoopP]
  | cons v vs' ih =>
    intro p Z hv hdrop hbound
    have hvhead : v < 2 ^ 12 := hv v (by simp)
    have hvtail : ∀ x ∈ vs', x < 2 ^ 12 := fun x hx => hv x (by simp [hx])
    have hlen12 : (natToBits 12 v).length = 12 := natToBits_length 12 v
    have hdrop' : (blockBits L).drop p =
        natToBits 12 v ++ (vs'.flatMap (natToBits 12) ++ Z) := by
      rw [hdrop, List.flatMap_cons, List.append_assoc]
    have hbound1 : p + 12 ≤ 8 * L.length := by
      simp only [List.length_cons] at hbound
      omega
    have hex := extractBits_stateAt L.length L tail rfl (by omega) 12 p 0 hbound1
    have htake : ((blockBits L).drop p).take 12 = natToBits 12 v := by
      rw [hdrop', List.take_append_of_le_length (by simp [hlen12]),
        List.take_of_length_le (by simp [hlen12])]
    have hexval : bitsToNatAux 0 (((blockBits L).drop p).take 12) = v := by
      rw [htake, bitsToNatAux_natToBits, Nat.mod_eq_of_lt hvhead]
    rw [hexval] at hex
    have hcs : chanStepP L.length (chan12 signed) (stateAt L.length L tail p) =
        some ((packedOut (chan12 signed) v,
          polyEval [0, 1] (packedOut (chan12 signed) v)), stateAt L.length L tail (p + 12)) :=
      chanStepP_eq L.length (chan12 signed) _ _ v (by simp [chan12])
        (by simp [chan12, rawWidth]) (by simp [chan12, rawWidth]) hvhead hex
    have hpo : packedOut (chan12 signed) v = tc12 signed v := by
      rw [packedOut, tc12, show rawWidth (chan12 signed) = 12 from rfl,
        show (chan12 signed).compressedSampleSizeInBits = 12 from rfl,
        show (chan12 signed).signedNumber = signed from rfl]
      simp only [show (12 : Nat) - 1 = 11 from rfl, show (12 : Nat) - 12 = 0 from rfl,
        pow_zero, mul_one]
    rw [hpo] at hcs
    have hsample : sampleStepP L.length 1 [chan12 signed] (stateAt L.length L tail p) =
        some ([(tc12 signed v, polyEval [0, 1] (tc12 signed v))],
          stateAt L.length L tail (p + 12)) := by
      rw [sampleStepP_one, hcs]
    have hdrop'' : (blockBits L).drop (p + 12) = vs'.flatMap (natToBits 12) ++ Z := by
      rw [← List.drop_drop, hdrop',
        List.drop_append_of_le_length (by simp [hlen12]),
        List.drop_eq_nil_of_le (by simp [hlen12]), List.nil_append]
    have hrec := ih (p + 12) Z hvtail hdrop''
      (by simp only [List.length_cons] at hbound; omega)
    show blockLoopP info (vs'.length + 1) (stateAt L.length L tail p) = _
    rw [blockLoopP_succ, hrbsb, hnc, hchain]
    simp only [hsample, hrec, List.map_cons, List.length_cons]
    rw [show p + 12 + 12 * vs'.length = p + 12 * (vs'.length + 1) from by ring]

lemma decodePAux_cons (info : DataFileInfo) (fuel b : Nat) (rest : List Nat) :
    decodePAux info (fuel + 1) (b :: rest) =
      match (blockLoopP info info.readBlockSize ⟨b, 0, 1, rest⟩).2 with
      | none => some (blockLoopP info info.readBlockSize ⟨b, 0, 1, rest⟩).1
      | some st' =>
        match decodePAux info fuel st'.rest with
        | none => none
        | some tail => some ((blockLoopP info info.readBlockSize ⟨b, 0, 1, rest⟩).1 ++ tail) := by
  show (let r := blockLoopP info info.readBlockSize ⟨b, 0, 1, rest⟩
    match r.2 with
    | none => some r.1
    | some st' =>
      match decodePAux info fuel st'.rest with
      | none => none
      | some tail => some (r.1 ++ tail)) = _
  rfl

/-- Claim C1: packing 12-bit values MSB-first with no padding and
decoding through `DecodeDataWithPacking` (with `lsb = 0`) recovers every
value exactly as the raw integer passed to scaling — the unsigned value
itself, or its two's-complement reading `tc12` for a signed channel,
which on packed in-range signed values is the original value. -/
theorem claim_C1 (signed : Bool) (vals : List Nat) (hne : vals ≠ [])
    (hval : ∀ v ∈ vals, v < 2 ^ 12) :
    DecodeDataWithPacking (info12 signed vals.length) (packBytes 12 vals) =
      some (vals.map (fun v => [(tc12 signed v, polyEval [0, 1] (tc12 signed v))])) ∧
    (∀ x : Int, -(2 ^ 11) ≤ x → x < 2 ^ 11 → tc12 true ((x % 2 ^ 12).toNat) = x) ∧
    (∀ v : Nat, v < 2 ^ 12 → tc12 false v = (v : Int)) := by
  refine ⟨?_, ?_, ?_⟩
  · have hn : 1 ≤ vals.length := by
      rcases vals with _ | ⟨v, vs⟩
      · exact absurd rfl hne
      · simp
    have hblen : (vals.flatMap (natToBits 12)).length = 12 * vals.length :=
      flatMap_natToBits_length 12 vals
    have hLlen : (packBytes 12 vals).length = (12 * vals.length + 7) / 8 := by
      rw [packBytes_length, hblen]
    have hLpos : 0 < (packBytes 12 vals).length := by rw [hLlen]; omega
    have hB : blockBits (packBytes 12 vals) =
        vals.flatMap (natToBits 12) ++
          List.replicate (8 * ((12 * vals.length + 7) / 8) - 12 * vals.length) 0 := by
      rw [blockBits_packBytes, hblen]
    rcases hLc : packBytes 12 vals with _ | ⟨b, rest⟩
    · rw [hLc] at hLpos; simp at hLpos
    · rw [hLc] at hLlen hB
      rw [DecodeDataWithPacking, decodePAux_cons]
      have hst0 : stateAt (b :: rest).length (b :: rest) [] 0 = ⟨b, 0, 1, rest⟩ := by
        rw [stateAt, if_pos (by simp only [List.length_cons]; omega)]
        simp
      have hloop := c1_loop (info12 signed vals.length) signed (b :: rest) [] rfl rfl
        (by rw [hLlen]; rfl) (by simp) vals 0
        (List.replicate (8 * ((12 * vals.length + 7) / 8) - 12 * vals.length) 0)
        hval (by rw [List.drop_zero, hB]) (by
          simp only [List.length_cons] at hLlen ⊢
          omega)
      rw [show (info12 signed vals.length).readBlockSize = vals.length from rfl, ← hst0]
      rw [hloop]
      have hrestnil :
          (stateAt (b :: rest).length (b :: rest) [] (0 + 12 * vals.length)).rest = [] := by
        rw [stateAt]
        split_ifs with h
        · rw [List.append_nil]
          refine List.drop_eq_nil_of_le ?_
          simp only [List.length_cons] at hLlen ⊢
          omega
        · rfl
      simp only [hrestnil, decodePAux_nil, List.append_nil]
  · intro x h1 h2
    rw [tc12]
    split_ifs with h
    · have h' := h.2
      omega
    · have h' : ¬ (2 : Nat) ^ 11 ≤ (x % 2 ^ 12).toNat := fun hc => h ⟨rfl, hc⟩
      omega
  · intro v hv
    rw [tc12, if_neg (by simp)]

theorem claim_C1_witness :
    DecodeDataWithPacking (info12 true ([2748, 0, 4095] : List Nat).length)
        (packBytes 12 [2748, 0, 4095]) =
      some (([2748, 0, 4095] : List Nat).map
        (fun v => [(tc12 true v, polyEval [0, 1] (tc12 true v))])) ∧
    (∀ x : Int, -(2 ^ 11) ≤ x → x < 2 ^ 11 → tc12 true ((x % 2 ^ 12).toNat) = x) ∧
    (∀ v : Nat, v < 2 ^ 12 → tc12 false v = (v : Int)) :=
  claim_C1 true [2748, 0, 4095] (by decide) (by decide)

/-! ## Claim C3: truncation behaviour of both decode paths

The counterexample `claim_C3_cex` refutes the floor formula on the
unpacked path; the amended claim needs (a) the unpacked ceiling count,
and (b) that the bit-packed path always stops, returning the complete
samples decoded so far when the stream is exhausted mid-sample. -/

lemma extractBits_rest_le (rbsb : Nat) : ∀ (size val C B K : Nat) (R : List Nat)
    (r : Nat × PackState), extractBits rbsb size val ⟨C, B, K, R⟩ = some r →
    r.2.rest.length ≤ R.length := by
  intro size
  induction size with
  | zero =>
    intro val C B K R r h
    rw [extractBits] at h
    cases h
    exact Nat.le_refl _
  | succ n ih =>
    intro val C B K R r h
    rw [extractBits_succ] at h
    by_cases hc : B + 1 = 8 ∧ K < rbsb
    · rw [if_pos hc] at h
      cases R with
      | nil => exact absurd h (by simp)
      | cons b r' =>
        have h' : extractBits rbsb n (2 * val + ((C >>> (8 - B - 1)) &&& 1))
            ⟨b, 0, K + 1, r'⟩ = some r := h
        have h1 := ih _ _ _ _ _ _ h'
        simp only [List.length_cons]
        omega
    · rw [if_neg hc] at h
      exact ih _ _ _ _ _ _ h

lemma chanStepP_rest_le (rbsb : Nat) (c : ChannelInfo) (st : PackState)
    (r : (Int × ℚ) × PackState) (h : chanStepP rbsb c st = some r) :
    r.2.rest.length ≤ st.rest.length := by
  rw [chanStepP] at h
  rcases hex : extractBits rbsb c.compressedSampleSizeInBits 0 st with _ | ⟨v, st'⟩
  · rw [hex] at h
    exact absurd h (by simp)
  · rw [hex] at h
    cases h
    exact extractBits_rest_le rbsb _ 0 st.ch st.bitPos st.byteCount st.rest (v, st') hex

lemma sampleStepP_rest_le (rbsb : Nat) : ∀ (n : Nat) (cs : List ChannelInfo)
    (st : PackState) (r : List (Int × ℚ) × PackState),
    sampleStepP rbsb n cs st = some r → r.2.rest.length ≤ st.rest.length := by
  intro n
  induction n with
  | zero =>
    intro cs st r h
    rw [sampleStepP] at h
    cases h
    exact Nat.le_refl _
  | succ m ih =>
    intro cs st r h
    match cs with
    | [] => exact absurd h (by simp [sampleStepP])
    | c :: cs' =>
      rw [sampleStepP] at h
      rcases hcs : chanStepP rbsb c st with _ | ⟨v, st'⟩
      · rw [hcs] at h
        exact absurd h (by simp)
      · rw [hcs] at h
        have h' : (match sampleStepP rbsb m cs' st' with
            | none => none
            | some (vs, st'') => some (v :: vs, st'')) = some r := h
        rcases hss : sampleStepP rbsb m cs' st' with _ | ⟨vs, st''⟩
        · rw [hss] at h'
          exact absurd h' (by simp)
        · rw [hss] at h'
          cases h'
          calc st''.rest.length ≤ st'.rest.length := ih cs' st' (vs, st'') hss
          _ ≤ st.rest.length := chanStepP_rest_le rbsb c st (v, st') hcs

lemma blockLoopP_rest_le (info : DataFileInfo) : ∀ (s : Nat) (st st' : PackState),
    (blockLoopP info s st).2 = some st' → st'.rest.length ≤ st.rest.length := by
  intro s
  induction s with
  | zero =>
    intro st st' h
    rw [blockLoopP] at h
    cases h
    exact Nat.le_refl _
  | succ m ih =>
    intro st st' h
    rw [blockLoopP_succ] at h
    rcases hss : sampleStepP info.readBlockSizeInBytes info.numberOfChannels
        info.channelInfoChain st with _ | ⟨vs, st1⟩
    · rw [hss] at h
      exact absurd h (by simp)
    · rw [hss] at h
      have h' : (blockLoopP info m st1).2 = some st' := h
      calc st'.rest.length ≤ st1.rest.length := ih st1 st' h'
      _ ≤ st.rest.length := sampleStepP_rest_le _ _ _ _ _ hss

/-- The packed `while (numBytes)` loop always stops: each iteration's
initial `ch = *rawData++` consumes a byte, so any fuel above the buffer
length suffices. -/
lemma decodePAux_total (info : DataFileInfo) : ∀ (fuel : Nat) (buf : List Nat),
    buf.length < fuel → ∃ s, decodePAux info fuel buf = some s := by
  intro fuel
  induction fuel with
  | zero => intro buf h; omega
  | succ m ih =>
    intro buf hlt
    match buf with
    | [] => exact ⟨[], rfl⟩
    | b :: rest =>
      rcases hr : (blockLoopP info info.readBlockSize ⟨b, 0, 1, rest⟩).2 with _ | st'
      · refine ⟨(blockLoopP info info.readBlockSize ⟨b, 0, 1, rest⟩).1, ?_⟩
        rw [decodePAux_cons, hr]
      · have hle : st'.rest.length ≤ rest.length :=
          blockLoopP_rest_le info info.readBlockSize ⟨b, 0, 1, rest⟩ st' hr
        obtain ⟨tail, htail⟩ := ih st'.rest (by
          simp only [List.length_cons] at hlt
          omega)
        refine ⟨(blockLoopP info info.readBlockSize ⟨b, 0, 1, rest⟩).1 ++ tail, ?_⟩
        rw [decodePAux_cons, hr]
        show (match decodePAux info m st'.rest with
          | none => none
          | some tail =>
            some ((blockLoopP info info.readBlockSize ⟨b, 0, 1, rest⟩).1 ++ tail)) = _
        rw [htail]

/-- Claim C3 (amended): the unpacked path does *not* drop the partial
last block — byte reads past the end consume nothing, the block's
remaining samples are still emitted, and the decode returns
`ceil(totalBytes / bytesPerBlock) * readBlockSize` samples; the
bit-packed path always stops on a finite buffer, and on mid-sample
exhaustion returns the complete samples decoded so far (a 2-sample
12-bit block truncated from 3 bytes to 2 decodes to exactly its first,
complete sample). -/
theorem claim_C3 (info : DataFileInfo) (buf : List Nat)
    (h2 : info.numberOfChannels = info.channelInfoChain.length)
    (hbpb : 1 ≤ bytesPerBlock info) :
    (∃ s, DecodeDataWithoutPacking info buf = some s ∧
      s.length = ((buf.length + bytesPerBlock info - 1) / bytesPerBlock info) *
        info.readBlockSize) ∧
    (∀ (info' : DataFileInfo) (buf' : List Nat),
      ∃ s, DecodeDataWithPacking info' buf' = some s) ∧
    numSamples (DecodeDataWithPacking (info12 true 2) ((packBytes 12 [2748, 100]).take 2))
      = some 1 ∧
    rawValues (DecodeDataWithPacking (info12 true 2) ((packBytes 12 [2748, 100]).take 2))
      = some [[-1348]] ∧
    numSamples (DecodeDataWithPacking (info12 true 2) (packBytes 12 [2748, 100])) = some 2 := by
  refine ⟨decodeUAux_count info h2 hbpb (buf.length + 1) buf (by omega),
    fun info' buf' => decodePAux_total info' (buf'.length + 1) buf' (by omega),
    by decide, by decide, by decide⟩

theorem claim_C3_witness :
    (∃ s, DecodeDataWithoutPacking truncatedInfo [1, 0, 2, 0, 3] = some s ∧
      s.length = (([1, 0, 2, 0, 3] : List Nat).length + bytesPerBlock truncatedInfo - 1) /
        bytesPerBlock truncatedInfo * truncatedInfo.readBlockSize) ∧
    (∀ (info' : DataFileInfo) (buf' : List Nat),
      ∃ s, DecodeDataWithPacking info' buf' = some s) ∧
    numSamples (DecodeDataWithPacking (info12 true 2) ((packBytes 12 [2748, 100]).take 2))
      = some 1 ∧
    rawValues (DecodeDataWithPacking (info12 true 2) ((packBytes 12 [2748, 100]).take 2))
      = some [[-1348]] ∧
    numSamples (DecodeDataWithPacking (info12 true 2) (packBytes 12 [2748, 100])) = some 2 :=
  claim_C3 truncatedInfo [1, 0, 2, 0, 3] (by decide) (by decide)
